import Mathlib

/-!
Verification of the folder-snap archive/restore engine.

The TypeScript sources are shallowly embedded as follows.

* A directory tree on disk is `FsTree`: a file holds its raw bytes
  (`List Nat`, each `< 256`), a directory holds an ordered list of
  `(name, subtree)` entries.  The entry order models the order returned
  by `fs.readdirSync`.
* Paths relative to a walk root are lists of path segments
  (`List String`); `path.join` is list append, `path.dirname` is
  `dropLast`, `path.basename` is the last segment.
* JS strings are embedded as `List Char` (for path/filename
  manipulation) or as code-point lists `List Nat` (for the
  content codec, where the byte/code-point distinction matters).
* `readFolderStructure` (identical in the v2 and v3 sources) is
  `walkList`: it accumulates a structure list exactly as the imperative
  loop does, including the `contentIndex` field computed from
  `structure.filter(i => i.type === 'file').length` at push time.
-/

namespace FolderSnap

/-- A relative path, as a list of segments (`path.join` = `++`). -/
abbrev Path := List String

/-- A directory tree: files carry raw bytes, directories carry ordered
`(name, subtree)` entries in `readdirSync` listing order. -/
inductive FsTree where
  | file (content : List Nat)
  | dir (entries : List (String × FsTree))

mutual

/-- Well-formedness of a tree as a model of a real directory: the names
listed in any directory are pairwise distinct (a real filesystem never
lists the same name twice). -/
def WFb : FsTree → Bool
  | .file _ => true
  | .dir es => WFe es

/-- Well-formedness of a directory's entry list: no repeated names, and
every subtree well-formed. -/
def WFe : List (String × FsTree) → Bool
  | [] => true
  | (n, t) :: rest => decide (n ∉ rest.map Prod.fst) && WFb t && WFe rest

end

/-- Look a relative path up in an entry list, following directories.
Models resolving `path.join(root, relativePath)` against the tree rooted
at `root`.  `find?` models the fact that at most one entry of a real
directory bears a given name. -/
def lookupE : List (String × FsTree) → Path → Option FsTree
  | _, [] => none
  | es, [n] => (es.find? (fun e => e.1 == n)).map Prod.snd
  | es, n :: r :: rs =>
    match es.find? (fun e => e.1 == n) with
    | some (_, .dir es') => lookupE es' (r :: rs)
    | _ => none

/-- Relative paths of all directory nodes of a tree, in pre-order. -/
def treeDirs (pre : Path) : List (String × FsTree) → List Path
  | [] => []
  | (n, .dir es) :: rest => (pre ++ [n]) :: (treeDirs (pre ++ [n]) es ++ treeDirs pre rest)
  | (_, .file _) :: rest => treeDirs pre rest
termination_by es => sizeOf es
decreasing_by all_goals (simp; try omega)

/-- Relative paths and contents of all file nodes of a tree, in pre-order. -/
def treeFiles (pre : Path) : List (String × FsTree) → List (Path × List Nat)
  | [] => []
  | (n, .dir es) :: rest => treeFiles (pre ++ [n]) es ++ treeFiles pre rest
  | (n, .file c) :: rest => (pre ++ [n], c) :: treeFiles pre rest
termination_by es => sizeOf es
decreasing_by all_goals (simp; try omega)

/-- Relative paths of all nodes (files and directories) of a tree. -/
def treeAllPaths (pre : Path) : List (String × FsTree) → List Path
  | [] => []
  | (n, .dir es) :: rest =>
      (pre ++ [n]) :: (treeAllPaths (pre ++ [n]) es ++ treeAllPaths pre rest)
  | (n, .file _) :: rest => (pre ++ [n]) :: treeAllPaths pre rest
termination_by es => sizeOf es
decreasing_by all_goals (simp; try omega)

/-- One entry of the in-memory structure list built by
`readFolderStructure`: a directory item, or a file item carrying the
stat size and the internal `contentIndex`. -/
inductive Item where
  | dirI (path : Path) (name : String)
  | fileI (path : Path) (name : String) (size : Nat) (contentIndex : Nat)
  deriving DecidableEq

/-- The relative path of a structure item. -/
def Item.path : Item → Path
  | .dirI p _ => p
  | .fileI p _ _ _ => p

/-- Whether an item is a file item (`item.type === 'file'`). -/
def Item.isFile : Item → Bool
  | .fileI _ _ _ _ => true
  | .dirI _ _ => false

/-- Whether an item is a directory item (`item.type === 'directory'`). -/
def Item.isDir : Item → Bool
  | .dirI _ _ => true
  | .fileI _ _ _ _ => false

/-- `structure.filter(i => i.type === 'file').length` — the value the
source assigns to a new file item's `contentIndex`. -/
def countFiles (l : List Item) : Nat := (l.filter Item.isFile).length

/-- The recursive walk of `readFolderStructure`, embedded literally:
`acc` is the `structure` array being accumulated by the current
invocation; a subdirectory is walked by a recursive call starting from a
fresh empty array whose result is spliced in; a file item's
`contentIndex` is the number of file items in the current invocation's
accumulated array at push time.  `ign` is `this.shouldIgnore` applied to
the relative path. -/
def walkList (ign : Path → Bool) (pre : Path) :
    List (String × FsTree) → List Item → List Item
  | [], acc => acc
  | (name, t) :: rest, acc =>
    let rel := pre ++ [name]
    if ign rel then walkList ign pre rest acc
    else
      match t with
      | .dir es => walkList ign pre rest (acc ++ Item.dirI rel name :: walkList ign rel es [])
      | .file c => walkList ign pre rest (acc ++ [Item.fileI rel name c.length (countFiles acc)])
termination_by es _ => sizeOf es
decreasing_by all_goals (simp; try omega)

/-- `readFolderStructure(folderPath)` on the tree rooted at the source
folder: the walk starts with relative prefix `[]` and an empty array. -/
def readFolderStructure (ign : Path → Bool) (es : List (String × FsTree)) : List Item :=
  walkList ign [] es []

/-- Accumulator-free form of the walk, used for proofs: `k` is the
number of file items already accumulated by the enclosing invocation.
`walkList` is proved equal to it (`walkList_eq_walkCore`). -/
def walkCore (ign : Path → Bool) (pre : Path) (k : Nat) :
    List (String × FsTree) → List Item
  | [] => []
  | (name, t) :: rest =>
    let rel := pre ++ [name]
    if ign rel then walkCore ign pre k rest
    else
      match t with
      | .dir es =>
        let sub := walkCore ign rel 0 es
        Item.dirI rel name :: (sub ++ walkCore ign pre (k + countFiles sub) rest)
      | .file c => Item.fileI rel name c.length k :: walkCore ign pre (k + 1) rest
termination_by es => sizeOf es
decreasing_by all_goals (simp; try omega)

/-!
### Content filenames (v3 writer)

`generateContentFilename(filePath, index)` returns
`` `content_${index}_${safePath}.bin` `` where
`safePath = filePath.replace(/[^a-zA-Z0-9._-]/g, '_')`.
-/

/-- One character of `filePath.replace(/[^a-zA-Z0-9._-]/g, '_')`: kept
if it is an ASCII letter, digit, `.`, `_` or `-`, replaced by `_`
otherwise. -/
def sanitizeChar (c : Char) : Char :=
  if ('a' ≤ c ∧ c ≤ 'z') ∨ ('A' ≤ c ∧ c ≤ 'Z') ∨ ('0' ≤ c ∧ c ≤ '9') ∨
      c = '.' ∨ c = '_' ∨ c = '-' then c
  else '_'

/-- `filePath.replace(/[^a-zA-Z0-9._-]/g, '_')`. -/
def sanitize (s : List Char) : List Char := s.map sanitizeChar

/-- A decimal digit character (only ever applied to `d < 10`). -/
def digitChar (d : Nat) : Char :=
  match d with
  | 0 => '0' | 1 => '1' | 2 => '2' | 3 => '3' | 4 => '4'
  | 5 => '5' | 6 => '6' | 7 => '7' | 8 => '8' | 9 => '9'
  | _ => '*'

/-- Decimal rendering of a natural number, most significant digit
first, onto an accumulator (the embedding of JS `${index}`). -/
def natToCharsAux (n : Nat) (acc : List Char) : List Char :=
  if n < 10 then digitChar n :: acc
  else natToCharsAux (n / 10) (digitChar (n % 10) :: acc)
termination_by n
decreasing_by exact Nat.div_lt_self (by omega) (by omega)

/-- Decimal rendering of a natural number (JS `${index}`). -/
def natToChars (n : Nat) : List Char := natToCharsAux n []

/-- `path.relative`'s textual form of a segment path: segments joined
with `/`. -/
def joinPath : Path → List Char
  | [] => []
  | [s] => s.data
  | s :: r :: rs => s.data ++ '/' :: joinPath (r :: rs)

/-- `generateContentFilename(filePath, index)` =
`` `content_${index}_${safePath}.bin` ``. -/
def generateContentFilename (filePath : List Char) (index : Nat) : List Char :=
  "content_".data ++ natToChars index ++ '_' :: (sanitize filePath ++ ".bin".data)

/-!
### v3 pack (`folderToText`) and unpack (`unpackV3Snap`)

The v3 writer walks the source tree, writes one sidecar content file
per file entry into `snapDir/content/` (in walk order, a later write to
the same filename overwriting an earlier one), and serializes
`metadata.json` with each file entry's `contentIndex` replaced by its
`contentFile` name.  The reader creates every directory entry's path
(`mkdirSync` recursive, hence all ancestors), ensures each file's
containing directory exists, and writes each file entry's bytes read
from its sidecar content file (empty if the sidecar is missing).
JSON serialization of `metadata.json` is value-faithful, so the
serialized structure is modelled as the structure value itself.
-/

/-- A serialized structure item of `metadata.json`: `contentIndex` is
stripped, file items carry `contentFile` instead. -/
inductive SItem where
  | dirS (path : Path) (name : String)
  | fileS (path : Path) (name : String) (size : Nat) (contentFile : List Char)
  deriving DecidableEq

/-- The metadata counters of a snap archive
(`totalFiles`/`totalDirectories`; timestamp and source-folder name are
wall-clock/incidental data no claim depends on). -/
structure SnapMeta where
  totalFiles : Nat
  totalDirectories : Nat
  deriving DecidableEq

/-- The on-disk output of the v3 writer: metadata counters, the
serialized structure list of `metadata.json`, and the
`content/` directory as the list of `(filename, bytes)` writes in
write order (a later write overwrites an earlier one). -/
structure PackOut where
  metadata : SnapMeta
  items : List SItem
  contents : List (List Char × List Nat)
  deriving DecidableEq

/-- `fs.readFileSync(path.join(folderPath, file.path))` against the
source tree: the bytes of the file at the relative path.  A failing
read (no such file) yields an empty content file — the writer's
`catch` branch. -/
def contentOf (root : List (String × FsTree)) (p : Path) : List Nat :=
  match lookupE root p with
  | some (.file c) => c
  | _ => []

/-- Serialization of one structure item for `metadata.json`: the
`contentIndex` of a file item is replaced by the `contentFile` name it
generates. -/
def itemToS (it : Item) : SItem :=
  match it with
  | .dirI p n => SItem.dirS p n
  | .fileI p n s i => SItem.fileS p n s (generateContentFilename (joinPath p) i)

/-- The pure core of the v3 `folderToText`: walk the source tree, write
the sidecar content files in walk order, and serialize the structure
with `contentFile` names. -/
def folderToTextV3 (ign : Path → Bool) (root : List (String × FsTree)) : PackOut :=
  let st := readFolderStructure ign root
  { metadata := ⟨countFiles st, (st.filter Item.isDir).length⟩
    items := st.map itemToS
    contents := st.filterMap (fun it =>
      match it with
      | .fileI p _ _ i => some (generateContentFilename (joinPath p) i, contentOf root p)
      | .dirI _ _ => none) }

/-- The contents of a sidecar content file after all writes: the last
write to that filename wins (`fs.writeFileSync` overwrites). -/
def lookupLast (l : List (List Char × List Nat)) (k : List Char) : Option (List Nat) :=
  (l.reverse.find? (fun e => e.1 == k)).map Prod.snd

/-- The nonempty prefixes of a path — the directories created by
`fs.mkdirSync(path, { recursive: true })`. -/
def prefixesNE (p : Path) : List Path :=
  (List.range p.length).map (fun i => p.take (i + 1))

/-- The directory tree produced under the output folder by a restore:
the set of relative directory paths created and the relative file
paths written with their bytes. -/
structure Restored where
  dirs : List Path
  files : List (Path × List Nat)

/-- The pure core of `unpackV3Snap`: create every directory entry's
path (with ancestors), ensure each file's containing directory exists,
and write each file's bytes from its sidecar content file (empty bytes
if the sidecar filename is absent from the content directory). -/
def unpackV3Snap (out : PackOut) : Restored :=
  { dirs :=
      (out.items.filterMap (fun it =>
        match it with
        | .dirS p _ => some p
        | .fileS _ _ _ _ => none)).flatMap prefixesNE
      ++ (out.items.filterMap (fun it =>
        match it with
        | .fileS p _ _ _ => some p
        | .dirS _ _ => none)).flatMap (fun p => prefixesNE p.dropLast)
    files := out.items.filterMap (fun it =>
      match it with
      | .fileS p _ _ cf => some (p, (lookupLast out.contents cf).getD [])
      | .dirS _ _ => none) }

/-- A source tree on which sanitization makes two sidecar filenames
collide: the root file `x_y.txt` and the nested file `x/y.txt` both
sanitize to `x_y.txt` and both receive content index `0` (the nested
walk restarts its structure array, so its first file gets index `0`
again). -/
def collideTree : List (String × FsTree) :=
  [("x_y.txt", .file [1]), ("x", .dir [("y.txt", .file [2])])]

/-- An ignore predicate that ignores nothing (a tree with no ignored
paths). -/
def ignNone : Path → Bool := fun _ => false

/-- `q` strictly extends `p` as a segment path: `p` is a proper prefix
of `q` (the relation "the entry at `q` lies below the directory at
`p`"). -/
def strictExt (p q : Path) : Prop := ∃ r, r ≠ [] ∧ q = p ++ r

/-- The `(path, contentIndex)` records of the file items of a structure
list, in order. -/
def fileRecs (l : List Item) : List (Path × Nat) :=
  l.filterMap (fun it =>
    match it with
    | .fileI p _ _ i => some (p, i)
    | .dirI _ _ => none)

/-- The paths of the directory items of a structure list, in order. -/
def dirPathsOf (l : List Item) : List Path :=
  l.filterMap (fun it =>
    match it with
    | .dirI p _ => some p
    | .fileI _ _ _ _ => none)

/-- A one-file source tree whose file contains a NUL byte (used to
instantiate the v2 theorems at a binary file). -/
def binTree : List (String × FsTree) := [("data.bin", .file [0, 255])]

/-- The sidecar content filenames of the archive's file entries, in
serialization order. -/
def archiveContentFilenames (out : PackOut) : List (List Char) :=
  out.items.filterMap (fun it =>
    match it with
    | .fileS _ _ _ cf => some cf
    | .dirS _ _ => none)

/-!
### Snap directory naming (v3 writer)

`const snapDir = outputPath.replace(/\.snap$/, '_snap')` — the regex
replaces a trailing `.snap` with `_snap` when the path ends in `.snap`,
and leaves the string unchanged otherwise.
-/

/-- The `.snap` suffix as a character list. -/
def snapSuffix : List Char := ".snap".data

/-- The `_snap` suffix as a character list. -/
def underscoreSnap : List Char := "_snap".data

/-- `outputPath.replace(/\.snap$/, '_snap')`: JS `String.replace` with a
`$`-anchored pattern substitutes the match when present and returns the
string unchanged when the pattern does not match. -/
def snapDirOf (out : List Char) : List Char :=
  if out.drop (out.length - 5) = snapSuffix then
    out.take (out.length - 5) ++ underscoreSnap
  else out

/-!
### v2 content codec (claims C3, C9)

The v2 writer reads each file's bytes, classifies the buffer as binary
when it contains a NUL byte anywhere (`buffer.includes(0)`), stores
binary payloads as `buffer.toString('base64')` and text payloads as
`buffer.toString('utf8')`; the reader rebuilds bytes with
`Buffer.from(content, 'base64' | 'utf8')`.  JS strings are embedded as
code-point lists (`List Nat`); `buffer.toString('utf8')` is WHATWG
UTF-8 decoding with U+FFFD replacement of invalid sequences, and
`Buffer.from(s, 'utf8')` is UTF-8 encoding of the code points.
-/

/-- `buffer.includes(0)`: whether the byte sequence contains a NUL. -/
def hasNul (bytes : List Nat) : Bool := bytes.any (fun b => b == 0)

/-- The base64 alphabet as character codes (index `s` holds the code of
the character for sextet value `s`). -/
def b64AlphaN : List Nat :=
  ("ABCDEFGHIJKLMNOPQRSTUVWXYZabcdefghijklmnopqrstuvwxyz0123456789+/".data).map Char.toNat

/-- The character code for a sextet value. -/
def b64CharN (s : Nat) : Nat := b64AlphaN.getD s 0

/-- The sextet value of a base64 character code. -/
def b64ValN (c : Nat) : Nat := b64AlphaN.indexOf c

/-- `buffer.toString('base64')` as character codes: 3 bytes become 4
characters; a 1- or 2-byte tail is padded with `=` (code 61). -/
def b64EncodeN : List Nat → List Nat
  | [] => []
  | [a] => [b64CharN (a / 4), b64CharN (a % 4 * 16), 61, 61]
  | [a, b] => [b64CharN (a / 4), b64CharN (a % 4 * 16 + b / 16), b64CharN (b % 16 * 4), 61]
  | a :: b :: c :: rest =>
    b64CharN (a / 4) :: b64CharN (a % 4 * 16 + b / 16) ::
      b64CharN (b % 16 * 4 + c / 64) :: b64CharN (c % 64) :: b64EncodeN rest

/-- `Buffer.from(s, 'base64')`: decode 4 characters to 3 bytes,
dropping padding. -/
def b64DecodeN : List Nat → List Nat
  | w :: x :: y :: z :: rest =>
    if y = 61 then [b64ValN w * 4 + b64ValN x / 16]
    else if z = 61 then
      [b64ValN w * 4 + b64ValN x / 16, b64ValN x % 16 * 16 + b64ValN y / 4]
    else
      (b64ValN w * 4 + b64ValN x / 16) :: (b64ValN x % 16 * 16 + b64ValN y / 4) ::
        (b64ValN y % 4 * 64 + b64ValN z) :: b64DecodeN rest
  | _ => []

/-- One step of WHATWG/Node UTF-8 decoding: given a lead byte and the
remaining bytes, return the decoded scalar value (`none` for an invalid
sequence) and the number of continuation bytes consumed — on failure,
the length of the maximal subpart of a valid sequence, so decoding
resumes at the first offending byte. -/
def utf8Step (b : Nat) (rest : List Nat) : Option Nat × Nat :=
  if b < 128 then (some b, 0)
  else if 194 ≤ b ∧ b ≤ 223 then
    match rest with
    | [] => (none, 0)
    | b2 :: _ =>
      if 128 ≤ b2 ∧ b2 ≤ 191 then (some ((b - 192) * 64 + (b2 - 128)), 1)
      else (none, 0)
  else if 224 ≤ b ∧ b ≤ 239 then
    match rest with
    | [] => (none, 0)
    | b2 :: r2 =>
      if (if b = 224 then 160 ≤ b2 ∧ b2 ≤ 191
          else if b = 237 then 128 ≤ b2 ∧ b2 ≤ 159
          else 128 ≤ b2 ∧ b2 ≤ 191) then
        match r2 with
        | [] => (none, 1)
        | b3 :: _ =>
          if 128 ≤ b3 ∧ b3 ≤ 191 then
            (some ((b - 224) * 4096 + (b2 - 128) * 64 + (b3 - 128)), 2)
          else (none, 1)
      else (none, 0)
  else if 240 ≤ b ∧ b ≤ 244 then
    match rest with
    | [] => (none, 0)
    | b2 :: r2 =>
      if (if b = 240 then 144 ≤ b2 ∧ b2 ≤ 191
          else if b = 244 then 128 ≤ b2 ∧ b2 ≤ 143
          else 128 ≤ b2 ∧ b2 ≤ 191) then
        match r2 with
        | [] => (none, 1)
        | b3 :: r3 =>
          if 128 ≤ b3 ∧ b3 ≤ 191 then
            match r3 with
            | [] => (none, 2)
            | b4 :: _ =>
              if 128 ≤ b4 ∧ b4 ≤ 191 then
                (some ((b - 240) * 262144 + (b2 - 128) * 4096 + (b3 - 128) * 64 + (b4 - 128)), 3)
              else (none, 2)
          else (none, 1)
      else (none, 0)
  else (none, 0)

/-- WHATWG/Node UTF-8 decoding of a byte sequence to code points:
an invalid sequence produces one U+FFFD (65533) per maximal subpart. -/
def utf8Decode : List Nat → List Nat
  | [] => []
  | b :: rest =>
    let s := utf8Step b rest
    s.1.getD 65533 :: utf8Decode (rest.drop s.2)
termination_by l => l.length
decreasing_by simp [List.length_drop]; omega

/-- UTF-8 encoding of code points to bytes (`Buffer.from(s, 'utf8')`). -/
def utf8Encode : List Nat → List Nat
  | [] => []
  | cp :: rest =>
    if cp < 128 then cp :: utf8Encode rest
    else if cp < 2048 then (192 + cp / 64) :: (128 + cp % 64) :: utf8Encode rest
    else if cp < 65536 then
      (224 + cp / 4096) :: (128 + cp / 64 % 64) :: (128 + cp % 64) :: utf8Encode rest
    else
      (240 + cp / 262144) :: (128 + cp / 4096 % 64) :: (128 + cp / 64 % 64) ::
        (128 + cp % 64) :: utf8Encode rest

/-- Whether a byte sequence is (minimal, scalar-value) valid UTF-8 —
exactly the sequences Node's decoder accepts without substituting
U+FFFD. -/
def utf8ValidB : List Nat → Bool
  | [] => true
  | b :: rest =>
    let s := utf8Step b rest
    s.1.isSome && utf8ValidB (rest.drop s.2)
termination_by l => l.length
decreasing_by simp [List.length_drop]; omega

/-- The v2 writer's per-file content encoding (lines 136–154 of the v2
source): a buffer containing a NUL byte is stored as base64 with
encoding tag `base64`, otherwise as UTF-8 text with tag `utf8`. -/
def v2EncodeContent (bytes : List Nat) : List Nat × String :=
  if hasNul bytes then (b64EncodeN bytes, "base64") else (utf8Decode bytes, "utf8")

/-- The v2 reader's per-file content decoding (lines 252–266 of the v2
source): an empty content writes an empty file; otherwise
`Buffer.from(content, encoding)` with `base64` when the tag says so and
`utf8` otherwise. -/
def v2DecodeContent (content : List Nat) (encoding : String) : List Nat :=
  if content.length > 0 then
    if encoding = "base64" then b64DecodeN content else utf8Encode content
  else []

/-- A serialized v2 structure item: file entries carry inline `content`
and an `encoding` tag; `contentIndex` is stripped. -/
inductive V2Item where
  | dirV (path : Path) (name : String)
  | fileV (path : Path) (name : String) (size : Nat) (content : List Nat) (encoding : String)
  deriving DecidableEq

/-- The pure core of the v2 `folderToText`: walk the source tree and
attach encoded content to each file entry; the `size` field is the walk
item's stat size, untouched by content attachment.  A file whose read
fails gets empty content with tag `utf8` (the `catch` branch), which
coincides with `v2EncodeContent` of empty bytes. -/
def folderToTextV2 (ign : Path → Bool) (root : List (String × FsTree)) :
    SnapMeta × List V2Item :=
  let st := readFolderStructure ign root
  (⟨countFiles st, (st.filter Item.isDir).length⟩,
    st.map (fun it =>
      match it with
      | .dirI p n => V2Item.dirV p n
      | .fileI p n s _ =>
        let enc := v2EncodeContent (contentOf root p)
        V2Item.fileV p n s enc.1 enc.2))

/-!
### The Ignore Filter state (claim C5)

`FolderSnap`'s constructor runs `this.ig = ignore()` once; every
top-level operation then calls `loadGitignore(folderPath)`, which only
ever calls `this.ig.add(...)` — the accumulated rule state of the
shared `ignore` instance is never reset between operations.
-/

/-- The fixed built-in rules `loadGitignore` adds on every call
(v3 source, lines 36–43). -/
def defaultIgnores : List String :=
  ["node_modules/", "venv/", ".git/", "*.log", ".DS_Store", "Thumbs.db"]

/-- The accumulated rule state of the `ignore` instance held in
`this.ig`. -/
structure IgCtx where
  rules : List String
  deriving DecidableEq

/-- `this.ig = ignore()` in the constructor: an empty rule set. -/
def igInit : IgCtx := ⟨[]⟩

/-- `this.ig.add(rules)`: the external engine appends rules to its
accumulated set. -/
def igAdd (st : IgCtx) (rs : List String) : IgCtx := ⟨st.rules ++ rs⟩

/-- `loadGitignore(folderPath)`, run at the start of each top-level
operation: adds the built-in defaults to the instance's existing rule
state, then the rules of the target folder's ignore file when that file
exists (`none` = absent).  The accumulated state is not reset. -/
def loadGitignore (st : IgCtx) (gitignoreRules : Option (List String)) : IgCtx :=
  igAdd (igAdd st defaultIgnores) (gitignoreRules.getD [])

/-- Modelled from the spec: the ignore-pattern matching engine is an
external library ("consumed via a capability interface: given a set of
glob-style rules and a relative path, report whether the path
matches"), absent from the repository sources.  The theorems below
exercise it only on literal file-name rules, for which glob matching is
plain string equality. -/
def igMatches (rules : List String) (rel : List Char) : Bool :=
  rules.any (fun r => r.data == rel)

/-- `shouldIgnore(relativePath)`: a hidden basename (leading `.`) when
`includeHidden` is off, or a match of the accumulated rules. -/
def shouldIgnore (includeHidden : Bool) (st : IgCtx) (rel : Path) : Bool :=
  (!includeHidden && ((rel.getLastD "").data.head? == some '.')) ||
    igMatches st.rules (joinPath rel)

/-!
### Operation boundaries (claim C7)

`folderToText`, `textToFolder` and `validateSnapFile` wrap their whole
body in `try`/`catch` and return a structured result from the `catch`;
`getFolderStats` has no `try`/`catch` and `throw`s on a missing folder
(and propagates `readdirSync`'s `ENOTDIR` on a non-directory).
`Except.error` models a raw exception escaping the operation boundary.
-/

/-- A structured `SnapResult`: success flag, optional error message,
optional metadata counters (`outputPath`/`outputFolder` strings are
incidental and omitted). -/
structure SnapResult where
  success : Bool
  error : Option String
  stats : Option SnapMeta
  deriving DecidableEq

/-- A JS `try { body } catch (e) { return handler(e) }` whose handler
returns a structured result: the combined computation never lets an
exception escape. -/
def tryCatchResult (body : Except String SnapResult) (handler : String → SnapResult) :
    Except String SnapResult :=
  .ok (match body with
    | .ok r => r
    | .error e => handler e)

/-- The `try` body of the v3 `folderToText`: throws when the source
folder is missing (`none`) or is not a directory, otherwise packs the
tree and returns the structured success result. -/
def folderToTextBody (ign : Path → Bool) (src : Option FsTree) : Except String SnapResult :=
  match src with
  | none => .error "Source folder does not exist"
  | some (.file _) => .error "Source path is not a directory"
  | some (.dir es) => .ok ⟨true, none, some (folderToTextV3 ign es).metadata⟩

/-- `folderToText`: the whole body inside `try`, the `catch` returning
`{ success: false, error }`. -/
def folderToTextOp (ign : Path → Bool) (src : Option FsTree) : Except String SnapResult :=
  tryCatchResult (folderToTextBody ign src) (fun e => ⟨false, some e, none⟩)

/-- The `try` body of `textToFolder`: throws when the snap file is
missing; otherwise its work is delegated to `unpackV3Snap` or
`unpackLegacySnap`, both of which catch their own exceptions and
return structured results. -/
def textToFolderBody (snap : Option SnapResult) : Except String SnapResult :=
  match snap with
  | none => .error "Snap file does not exist"
  | some r => .ok r

/-- `textToFolder`: the whole body inside `try`, the `catch` returning
`{ success: false, error }`. -/
def textToFolderOp (snap : Option SnapResult) : Except String SnapResult :=
  tryCatchResult (textToFolderBody snap) (fun e => ⟨false, some e, none⟩)

/-- The `try` body of `validateSnapFile`: a missing file returns an
invalid result (no throw), and metadata reads may throw. -/
def validateSnapFileBody (snap : Option (Except String SnapMeta)) : Except String SnapResult :=
  match snap with
  | none => .ok ⟨false, some "Snap file does not exist", none⟩
  | some (.error e) => .error e
  | some (.ok m) => .ok ⟨true, none, some m⟩

/-- `validateSnapFile`: the whole body inside `try`, the `catch`
returning an invalid result with the error message. -/
def validateSnapFileOp (snap : Option (Except String SnapMeta)) : Except String SnapResult :=
  tryCatchResult (validateSnapFileBody snap) (fun e => ⟨false, some e, none⟩)

/-- The statistics record returned by `getFolderStats`
(`totalSizeFormatted` is floating-point string formatting, omitted). -/
structure FolderStats where
  files : Nat
  directories : Nat
  totalSize : Nat
  deriving DecidableEq

/-- `getFolderStats`: NO `try`/`catch` — it throws on a missing folder,
and `readdirSync` throws `ENOTDIR` past it on a non-directory source;
on a directory it walks the tree and sums file sizes. -/
def getFolderStats (ign : Path → Bool) (src : Option FsTree) : Except String FolderStats :=
  match src with
  | none => .error "Folder does not exist"
  | some (.file _) => .error "ENOTDIR: not a directory"
  | some (.dir es) =>
    let st := readFolderStructure ign es
    .ok ⟨countFiles st, (st.filter Item.isDir).length,
      (st.filterMap (fun it =>
        match it with
        | .fileI _ _ s _ => some s
        | .dirI _ _ => none)).sum⟩

/-! ### JSON values and `JSON.parse`

Modelled from the spec: `JSON.parse` is the Node built-in; the reader's
format dispatch (`textToFolder`, v3 source lines 237-267, and
`unpackLegacySnap`, lines 365-479) only relies on whether it succeeds
and on the parsed value's fields.  The model below is a recursive
descent JSON parser over the file's characters.  Modelling
restrictions: `\u` escapes and the leading-zero number restriction are
not modelled, and control characters inside strings are accepted;
nothing in the theorems depends on these corners. -/

inductive JVal where
  | jnull
  | jbool (b : Bool)
  | jnum (s : List Char)
  | jstr (s : List Char)
  | jarr (xs : List JVal)
  | jobj (fs : List (List Char × JVal))

/-- JSON insignificant whitespace. -/
def jWs (c : Char) : Bool := c == ' ' || c == '\t' || c == '\n' || c == '\r'

def jSkipWs : List Char → List Char
  | [] => []
  | c :: r => if jWs c then jSkipWs r else c :: r

/-- JSON string escape characters (`\u` escapes not modelled). -/
def jEsc : Char → Option Char
  | '"' => some '"'
  | '\\' => some '\\'
  | '/' => some '/'
  | 'b' => some (Char.ofNat 8)
  | 'f' => some (Char.ofNat 12)
  | 'n' => some '\n'
  | 'r' => some '\r'
  | 't' => some '\t'
  | _ => none

/-- Scan a JSON string body after the opening quote; returns the
decoded content and the remainder after the closing quote. -/
def jString : List Char → Option (List Char × List Char)
  | [] => none
  | '"' :: r => some ([], r)
  | '\\' :: [] => none
  | '\\' :: c :: r2 =>
    match jEsc c with
    | none => none
    | some e => (jString r2).map (fun p => (e :: p.1, p.2))
  | c :: r => (jString r).map (fun p => (c :: p.1, p.2))

/-- Split a leading run of decimal digits. -/
def jDigits : List Char → List Char × List Char
  | [] => ([], [])
  | c :: r =>
    if c.isDigit then
      let p := jDigits r
      (c :: p.1, p.2)
    else ([], c :: r)

/-- Optional fraction part of a JSON number. -/
def jParseFrac : List Char → Option (List Char × List Char)
  | '.' :: r =>
    match jDigits r with
    | ([], _) => none
    | (d, r2) => some ('.' :: d, r2)
  | s => some ([], s)

/-- Optional exponent part of a JSON number. -/
def jParseExp : List Char → Option (List Char × List Char)
  | c :: r =>
    if c == 'e' || c == 'E' then
      match r with
      | sg :: r2 =>
        if sg == '+' || sg == '-' then
          match jDigits r2 with
          | ([], _) => none
          | (d, r3) => some (c :: sg :: d, r3)
        else
          match jDigits r with
          | ([], _) => none
          | (d, r3) => some (c :: d, r3)
      | [] => none
    else some ([], c :: r)
  | [] => some ([], [])

/-- Unsigned JSON number: digits, optional fraction, optional
exponent; the literal's text is kept. -/
def jParseNumBody (s : List Char) : Option (List Char × List Char) :=
  match jDigits s with
  | ([], _) => none
  | (d, r) =>
    match jParseFrac r with
    | none => none
    | some (f, r2) =>
      match jParseExp r2 with
      | none => none
      | some (e, r3) => some (d ++ f ++ e, r3)

def jParseNum : List Char → Option (JVal × List Char)
  | '-' :: r => (jParseNumBody r).map (fun p => (.jnum ('-' :: p.1), p.2))
  | s => (jParseNumBody s).map (fun p => (.jnum p.1, p.2))

mutual

/-- Parse one JSON value; `fuel` bounds the recursion depth (the entry
point supplies more fuel than any input can consume). -/
def jParseVal : Nat → List Char → Option (JVal × List Char)
  | 0, _ => none
  | fuel + 1, s =>
    match jSkipWs s with
    | 'n' :: 'u' :: 'l' :: 'l' :: r => some (.jnull, r)
    | 't' :: 'r' :: 'u' :: 'e' :: r => some (.jbool true, r)
    | 'f' :: 'a' :: 'l' :: 's' :: 'e' :: r => some (.jbool false, r)
    | '"' :: r => (jString r).map (fun p => (.jstr p.1, p.2))
    | '[' :: r =>
      match jSkipWs r with
      | ']' :: r2 => some (.jarr [], r2)
      | r2 => (jParseElems fuel r2).map (fun p => (.jarr p.1, p.2))
    | '{' :: r =>
      match jSkipWs r with
      | '}' :: r2 => some (.jobj [], r2)
      | r2 => (jParseFields fuel r2).map (fun p => (.jobj p.1, p.2))
    | r => jParseNum r

/-- Parse the comma-separated elements of a nonempty JSON array, up to
and including the closing bracket. -/
def jParseElems : Nat → List Char → Option (List JVal × List Char)
  | 0, _ => none
  | fuel + 1, s =>
    match jParseVal fuel s with
    | none => none
    | some (v, r) =>
      match jSkipWs r with
      | ',' :: r2 => (jParseElems fuel r2).map (fun p => (v :: p.1, p.2))
      | ']' :: r2 => some ([v], r2)
      | _ => none

/-- Parse the fields of a nonempty JSON object, up to and including
the closing brace. -/
def jParseFields : Nat → List Char → Option (List (List Char × JVal) × List Char)
  | 0, _ =>  none
  | fuel + 1, s =>
    match jSkipWs s with
    | '"' :: r =>
      match jString r with
      | none => none
      | some (k, r2) =>
        match jSkipWs r2 with
        | ':' :: r3 =>
          match jParseVal fuel r3 with
          | none => none
          | some (v, r4) =>
            match jSkipWs r4 with
            | ',' :: r5 => (jParseFields fuel r5).map (fun p => ((k, v) :: p.1, p.2))
            | '}' :: r5 => some ([(k, v)], r5)
            | _ => none
        | _ => none
    | _ => none

end

/-- `JSON.parse`: parse one value and require only whitespace after
it. -/
def jsonParse (s : List Char) : Option JVal :=
  match jParseVal (2 * s.length + 2) s with
  | some (v, r) => if (jSkipWs r).isEmpty then some v else none
  | none => none

/-- JS property access `v.k` on a parsed JSON value: `undefined`
(`none`) unless `v` is an object with field `k` (`JSON.parse` keeps
the LAST duplicate key, hence the reverse). -/
def jGet : JVal → List Char → Option JVal
  | .jobj fs, k => ((fs.reverse).find? (fun f => f.1 == k)).map Prod.snd
  | _, _ => none

/-- JS truthiness of a JSON value (a number is falsy exactly when its
mantissa digits are all `0`). -/
def jTruthy : JVal → Bool
  | .jnull => false
  | .jbool b => b
  | .jnum s => (s.takeWhile (fun c => c != 'e' && c != 'E')).any
      (fun c => c.isDigit && c != '0')
  | .jstr s => !s.isEmpty
  | .jarr _ => true
  | .jobj _ => true

/-- `snapData.type === 'folder-snap-v3'` (strict equality, so only a
string field compares equal). -/
def typeIsV3 (d : JVal) : Bool :=
  match jGet d ("type".data) with
  | some (.jstr t) => t == ("folder-snap-v3".data)
  | _ => false

/-! ### The reader's format dispatch and its write log -/

def startMarker : List Char := "<FOLDER_SNAP_START>".data

def endMarker : List Char := "<FOLDER_SNAP_END>".data

/-- `String.indexOf`: index of the first occurrence of `pat` in `s`
(`none` for JS `-1`). -/
def indexOfSub : List Char → List Char → Option Nat
  | [], pat => if pat.isPrefixOf ([] : List Char) then some 0 else none
  | c :: r, pat =>
    if pat.isPrefixOf (c :: r) then some 0
    else (indexOfSub r pat).map (fun n => n + 1)

/-- JS `String.substring`: clamps both indices to the length and swaps
them if out of order. -/
def jsSubstring (s : List Char) (a b : Nat) : List Char :=
  (s.take (max (min a s.length) (min b s.length))).drop
    (min (min a s.length) (min b s.length))

/-- JS `String.trim` (on the whitespace forms that occur in archives). -/
def jsTrim (s : List Char) : List Char :=
  (jSkipWs ((jSkipWs s).reverse)).reverse

/-- A filesystem modification performed during a restore: a
`fs.mkdirSync` or a `fs.writeFileSync`, with the path written. -/
inductive WriteEvent where
  | mkdirE (p : List Char)
  | fileE (p : List Char)
  deriving DecidableEq

/-- `path.join(a, b)` as used with relative item paths. -/
def joinStr (a b : List Char) : List Char := a ++ '/' :: b

/-- `path.dirname`: the part before the last `/`, or `.` if none. -/
def dirnameStr (p : List Char) : List Char :=
  match p.reverse.dropWhile (fun c => c != '/') with
  | [] => ['.']
  | _ :: rest => rest.reverse

/-- The structured result of a restore operation together with the
write log: the success flag and error message of the returned
`SnapResult`, and the filesystem writes performed, in order.  `env`
below models `fs.existsSync`. -/
structure RunResult where
  success : Bool
  error : Option (List Char)
  writes : List WriteEvent
  deriving DecidableEq

def invalidSnapFormatMsg : List Char := "Invalid snap file format".data

def missingMarkersMsg : List Char :=
  "Invalid legacy snap file format. Missing structure markers.".data

def noJsonDataMsg : List Char := "Legacy snap file contains no JSON data.".data

def legacyParseFailMsg : List Char := "Failed to parse legacy JSON".data

def missingStructureMsg : List Char :=
  "Invalid legacy snap file structure. Missing metadata or structure.".data

def nullTypeErrorMsg : List Char := "TypeError".data

def snapDirNotFoundMsg : List Char := "Snap directory not found".data

def metadataNotFoundMsg : List Char := "Metadata file not found".data

def metadataParseFailMsg : List Char := "SyntaxError".data

/-- The writes of the restore phase shared by the v3 and legacy
readers (source lines 288-338 and 405-460): create the output folder
if missing, then `mkdirSync` each directory item, then for each file
item ensure its parent directory and `writeFileSync` the file (every
branch of the per-file content handling writes the file).  Items whose
`path` is not a string make `path.join` throw inside the per-item
`try`/`catch` and are skipped.  Modelling restriction: assumes
`structure` is an array (of any values); JS type pathologies of
non-array `structure` fields abort with an exception mid-loop and are
not modelled. -/
def restoreWrites (env : List Char → Bool) (d : JVal) (out : List Char) :
    List WriteEvent :=
  let items := match jGet d ("structure".data) with
    | some (.jarr xs) => xs
    | _ => []
  let dirs := items.filter (fun it =>
    match jGet it ("type".data) with
    | some (.jstr t) => t == ("directory".data)
    | _ => false)
  let files := items.filter (fun it =>
    match jGet it ("type".data) with
    | some (.jstr t) => t == ("file".data)
    | _ => false)
  (if env out then [] else [WriteEvent.mkdirE out])
    ++ dirs.filterMap (fun it =>
      match jGet it ("path".data) with
      | some (.jstr p) => some (WriteEvent.mkdirE (joinStr out p))
      | _ => none)
    ++ files.flatMap (fun it =>
      match jGet it ("path".data) with
      | some (.jstr p) =>
        (if env (dirnameStr (joinStr out p)) then []
          else [WriteEvent.mkdirE (dirnameStr (joinStr out p))])
          ++ [WriteEvent.fileE (joinStr out p)]
      | _ => [])

/-- `unpackLegacySnap` (source lines 365-479): find both sentinel
markers, extract and trim the substring between them, parse it as
JSON, check `metadata` and `structure` are present and truthy, and
only then start writing.  Every `throw` happens before the first
write, so every failure carries an empty write log.  (A `null` parsed
value makes the `data.metadata` access throw a `TypeError`, modelled
by the same failure-before-write outcome via `jGet`.) -/
def unpackLegacyRun (env : List Char → Bool) (content out : List Char) :
    RunResult :=
  match indexOfSub content startMarker, indexOfSub content endMarker with
  | some si, some ei =>
    let json := jsTrim (jsSubstring content (si + startMarker.length) ei)
    if json.isEmpty then ⟨false, some noJsonDataMsg, []⟩
    else
      match jsonParse json with
      | none => ⟨false, some legacyParseFailMsg, []⟩
      | some d =>
        if ((jGet d ("metadata".data)).elim false jTruthy &&
            (jGet d ("structure".data)).elim false jTruthy)
        then ⟨true, none, restoreWrites env d out⟩
        else ⟨false, some missingStructureMsg, []⟩
  | _, _ => ⟨false, some missingMarkersMsg, []⟩

/-- `unpackV3Snap`'s boundary (source lines 272-360): resolve the snap
directory from the metadata's `snapDirectory` field, require it and
its `metadata.json` to exist, parse that file (`readF` models
`fs.readFileSync`), and only then run the restore phase; all checks
precede the first write. -/
def unpackV3Run (env : List Char → Bool) (readF : List Char → List Char)
    (snapFileDir : List Char) (d : JVal) (out : List Char) : RunResult :=
  match jGet d ("snapDirectory".data) with
  | some (.jstr sd) =>
    if env (joinStr snapFileDir sd) then
      if env (joinStr (joinStr snapFileDir sd) ("metadata.json".data)) then
        match jsonParse (readF (joinStr (joinStr snapFileDir sd)
            ("metadata.json".data))) with
        | none => ⟨false, some metadataParseFailMsg, []⟩
        | some data => ⟨true, none, restoreWrites env data out⟩
      else ⟨false, some metadataNotFoundMsg, []⟩
    else ⟨false, some snapDirNotFoundMsg, []⟩
  | _ => ⟨false, some snapDirNotFoundMsg, []⟩

/-- `textToFolder` (source lines 237-267), for an existing snap file
with content `content`: parse the WHOLE file as JSON; a parse failure
throws `Invalid snap file format` immediately — there is NO fallback
to the sentinel format on parse failure.  When the parse succeeds, a
`folder-snap-v3` type dispatches to the v3 reader and anything else
dispatches to `unpackLegacySnap` (a parsed `null` throws a `TypeError`
at the `snapData.type` access, caught by the outer handler). -/
def textToFolderRun (env : List Char → Bool) (readF : List Char → List Char)
    (snapFileDir content out : List Char) : RunResult :=
  match jsonParse content with
  | none => ⟨false, some invalidSnapFormatMsg, []⟩
  | some data =>
    match data with
    | .jnull => ⟨false, some nullTypeErrorMsg, []⟩
    | _ =>
      if typeIsV3 data then unpackV3Run env readF snapFileDir data out
      else unpackLegacyRun env content out

/-- A legacy sentinel-wrapped archive text: not valid JSON as a whole
file, but containing both markers with valid JSON between them. -/
def c2text : List Char :=
  ("legacy snap <FOLDER_SNAP_START> \x7b\"metadata\":1,\"structure\":[]\x7d <FOLDER_SNAP_END>").data

end FolderSnap

namespace FolderSnap

/-! ### Theorems -/

theorem snapDirOf_of_snap (stem : List Char) :
    snapDirOf (stem ++ snapSuffix) = stem ++ underscoreSnap := by
  unfold snapDirOf
  rw [List.length_append]
  have h5 : stem.length + snapSuffix.length - 5 = stem.length := by
    have : snapSuffix.length = 5 := by decide
    omega
  rw [h5, List.drop_left, List.take_left]
  simp

theorem snapDirOf_of_not_snap (out : List Char)
    (h : ∀ stem, out ≠ stem ++ snapSuffix) : snapDirOf out = out := by
  unfold snapDirOf
  split
  · next hc =>
      exfalso
      apply h (out.take (out.length - 5))
      conv_lhs => rw [← List.take_append_drop (out.length - 5) out]
      rw [hc]
  · rfl

/-- Claim C8, counterexample: the claim says the snap directory name is
obtained by stripping any trailing `.snap` suffix and appending `_snap`
even for output paths that do not end in `.snap`; but for the output
path `out.txt` the source computes `out.txt` (the regex does not match,
so nothing is appended), not `out.txt_snap`. -/
theorem c8_counterexample :
    snapDirOf "out.txt".data = "out.txt".data ∧
      snapDirOf "out.txt".data ≠ "out.txt".data ++ underscoreSnap := by
  constructor
  · decide
  · decide

/-- Claim C8 (amended): the v3 writer's sidecar snap directory is the
output path with a trailing `.snap` suffix replaced by `_snap` when the
output path ends in `.snap`; an output path that does not end in `.snap`
is used unchanged as the snap directory path (no `_snap` is appended). -/
theorem c8_snapDir_naming (out stem : List Char) :
    (out = stem ++ snapSuffix → snapDirOf out = stem ++ underscoreSnap) ∧
      ((∀ s, out ≠ s ++ snapSuffix) → snapDirOf out = out) := by
  constructor
  · rintro rfl
    exact snapDirOf_of_snap stem
  · exact snapDirOf_of_not_snap out

/-- Witness for C8's amended theorem at concrete inputs: `archive.snap`
maps to `archive_snap`, and `plain` (no `.snap` suffix) is unchanged. -/
theorem c8_snapDir_naming_witness :
    snapDirOf "archive.snap".data = "archive".data ++ underscoreSnap ∧
      snapDirOf "plain".data = "plain".data := by
  constructor
  · exact (c8_snapDir_naming "archive.snap".data "archive".data).1 (by decide)
  · refine (c8_snapDir_naming "plain".data []).2 ?_
    intro s h
    have hl := congrArg List.length h
    simp only [List.length_append] at hl
    have h5 : ("plain".data).length = 5 := by decide
    have hsnap : snapSuffix.length = 5 := by decide
    rw [h5, hsnap] at hl
    have hs : s = [] := List.length_eq_zero.mp (by omega)
    subst hs
    revert h
    decide

/-! ### Decimal rendering and filename lemmas (claim C6) -/

theorem natToCharsAux_append (n : Nat) : ∀ acc, natToCharsAux n acc = natToChars n ++ acc := by
  induction n using Nat.strong_induction_on with
  | _ n ih =>
    intro acc
    by_cases h : n < 10
    · rw [natToCharsAux, if_pos h, natToChars, natToCharsAux, if_pos h]
      rfl
    · have hd : n / 10 < n := Nat.div_lt_self (by omega) (by omega)
      rw [natToCharsAux, if_neg h, ih (n / 10) hd]
      conv_rhs => rw [natToChars, natToCharsAux, if_neg h, ih (n / 10) hd]
      simp

theorem natToChars_eq (n : Nat) :
    natToChars n =
      if n < 10 then [digitChar n]
      else natToChars (n / 10) ++ [digitChar (n % 10)] := by
  by_cases h : n < 10
  · rw [natToChars, natToCharsAux, if_pos h, if_pos h]
  · rw [natToChars, natToCharsAux, if_neg h, if_neg h, natToCharsAux_append]

theorem natToChars_ne_nil (n : Nat) : natToChars n ≠ [] := by
  rw [natToChars_eq]
  split
  · simp
  · simp

theorem digitChar_toNat {d : Nat} (h : d < 10) : (digitChar d).toNat = 48 + d := by
  interval_cases d <;> rfl

theorem digitChar_inj {d e : Nat} (hd : d < 10) (he : e < 10)
    (h : digitChar d = digitChar e) : d = e := by
  have h1 := digitChar_toNat hd
  have h2 := digitChar_toNat he
  rw [h] at h1
  omega

theorem digitChar_ne_us {d : Nat} (h : d < 10) : digitChar d ≠ '_' := by
  intro heq
  have h1 := digitChar_toNat h
  rw [heq] at h1
  have : ('_').toNat = 95 := rfl
  omega

theorem natToChars_no_us (n : Nat) : ∀ c ∈ natToChars n, c ≠ '_' := by
  induction n using Nat.strong_induction_on with
  | _ n ih =>
    intro c hc
    rw [natToChars_eq] at hc
    by_cases h : n < 10
    · rw [if_pos h] at hc
      simp at hc
      subst hc
      exact digitChar_ne_us h
    · rw [if_neg h] at hc
      rcases List.mem_append.mp hc with h1 | h1
      · exact ih (n / 10) (Nat.div_lt_self (by omega) (by omega)) c h1
      · simp at h1
        subst h1
        exact digitChar_ne_us (Nat.mod_lt _ (by omega))

theorem splitUnderscore :
    ∀ (xs ys s t : List Char), (∀ c ∈ xs, c ≠ '_') → (∀ c ∈ ys, c ≠ '_') →
      xs ++ '_' :: s = ys ++ '_' :: t → xs = ys ∧ s = t := by
  intro xs
  induction xs with
  | nil =>
    intro ys s t _ hy h
    cases ys with
    | nil => simpa using h
    | cons y ys' =>
      simp at h
      exact absurd h.1.symm (hy y (by simp))
  | cons x xs' ih =>
    intro ys s t hx hy h
    cases ys with
    | nil =>
      simp at h
      exact absurd h.1 (hx x (by simp))
    | cons y ys' =>
      simp at h
      obtain ⟨rfl, h2⟩ := h
      obtain ⟨h3, h4⟩ := ih ys' s t (fun c hc => hx c (by simp [hc]))
        (fun c hc => hy c (by simp [hc])) h2
      exact ⟨by rw [h3], h4⟩

theorem natToChars_inj : ∀ {n m : Nat}, natToChars n = natToChars m → n = m := by
  intro n
  induction n using Nat.strong_induction_on with
  | _ n ih =>
    intro m h
    rw [natToChars_eq n, natToChars_eq m] at h
    by_cases hn : n < 10 <;> by_cases hm : m < 10
    · rw [if_pos hn, if_pos hm] at h
      simp at h
      exact digitChar_inj hn hm h
    · rw [if_pos hn, if_neg hm] at h
      have hlen := congrArg List.length h
      simp only [List.length_cons, List.length_append, List.length_nil] at hlen
      exact absurd (List.length_eq_zero.mp (by omega)) (natToChars_ne_nil (m / 10))
    · rw [if_neg hn, if_pos hm] at h
      have hlen := congrArg List.length h
      simp only [List.length_cons, List.length_append, List.length_nil] at hlen
      exact absurd (List.length_eq_zero.mp (by omega)) (natToChars_ne_nil (n / 10))
    · rw [if_neg hn, if_neg hm] at h
      have hrev := congrArg List.reverse h
      simp at hrev
      obtain ⟨hdig, hrest⟩ := hrev
      have hmod : n % 10 = m % 10 :=
        digitChar_inj (Nat.mod_lt _ (by omega)) (Nat.mod_lt _ (by omega)) hdig
      have hdiv : n / 10 = m / 10 :=
        ih (n / 10) (Nat.div_lt_self (by omega) (by omega)) hrest
      omega

/-- Claim C6 (amended): two file entries receive the same sidecar
content filename exactly when their sanitized relative paths coincide
and their content indices coincide — `generateContentFilename` is
injective up to sanitization, so filenames are pairwise distinct only
when the `(sanitized path, index)` pairs are; sanitization can conflate
the paths of same-named files in different directories. -/
theorem c6_contentFilename_iff (p q : List Char) (i j : Nat) :
    generateContentFilename p i = generateContentFilename q j ↔
      sanitize p = sanitize q ∧ i = j := by
  constructor
  · intro h
    unfold generateContentFilename at h
    rw [List.append_assoc, List.append_assoc] at h
    have h1 := List.append_cancel_left h
    obtain ⟨h2, h3⟩ := splitUnderscore _ _ _ _ (natToChars_no_us i) (natToChars_no_us j) h1
    refine ⟨List.append_cancel_right h3, natToChars_inj h2⟩
  · rintro ⟨h1, rfl⟩
    unfold generateContentFilename
    rw [h1]

/-- Witness for the amended C6 theorem: the distinct relative paths
`a/b` and `a_b` sanitize to the same string, so with equal indices the
generated filenames coincide. -/
theorem c6_contentFilename_iff_witness :
    generateContentFilename "a/b".data 0 = generateContentFilename "a_b".data 0 :=
  (c6_contentFilename_iff "a/b".data "a_b".data 0 0).mpr ⟨by decide, rfl⟩

/-- Claim C6, counterexample: packing `collideTree` (root file
`x_y.txt` plus directory `x` containing `y.txt`, nothing ignored)
produces two file entries whose sidecar content filenames are equal —
the claimed pairwise distinctness fails. -/
theorem c6_counterexample :
    ¬ (archiveContentFilenames (folderToTextV3 ignNone collideTree)).Nodup := by
  have hwalk : readFolderStructure ignNone collideTree =
      [.fileI ["x_y.txt"] "x_y.txt" 1 0, .dirI ["x"] "x", .fileI ["x", "y.txt"] "y.txt" 1 0] := by
    simp [readFolderStructure, walkList, countFiles, Item.isFile, collideTree, ignNone]
  have hnum : natToChars 0 = ['0'] := by
    rw [natToChars_eq]
    rfl
  simp [archiveContentFilenames, folderToTextV3, hwalk, itemToS, generateContentFilename,
    hnum, joinPath, sanitize, sanitizeChar]

/-! ### Walk lemmas -/

theorem countFiles_append (a b : List Item) :
    countFiles (a ++ b) = countFiles a + countFiles b := by
  simp [countFiles]

theorem countFiles_cons_dir (p : Path) (n : String) (l : List Item) :
    countFiles (Item.dirI p n :: l) = countFiles l := by
  simp [countFiles, Item.isFile]

theorem countFiles_cons_file (p : Path) (n : String) (s i : Nat) (l : List Item) :
    countFiles (Item.fileI p n s i :: l) = countFiles l + 1 := by
  simp [countFiles, Item.isFile]

theorem walkList_eq_walkCore (ign : Path → Bool) (pre : Path)
    (es : List (String × FsTree)) (acc : List Item) :
    walkList ign pre es acc = acc ++ walkCore ign pre (countFiles acc) es := by
  induction pre, es, acc using walkList.induct ign with
  | case1 pre acc => simp [walkList, walkCore]
  | case2 pre name t rest acc rel hig ih =>
    cases t with
    | dir es2 =>
      simp only [walkList, walkCore]
      rw [if_pos hig, if_pos hig]
      exact ih
    | file c2 =>
      simp only [walkList, walkCore]
      rw [if_pos hig, if_pos hig]
      exact ih
  | case3 pre name rest acc rel hig es ih1 ih2 ih3 =>
    have hsub : walkList ign (pre ++ [name]) es [] = walkCore ign (pre ++ [name]) 0 es := by
      simpa [countFiles] using ih1
    simp only [walkList, walkCore, hig, if_false]
    rw [ih3, hsub, countFiles_append, countFiles_cons_dir]
    simp [List.append_assoc]
  | case4 pre name rest acc rel hig c ih =>
    simp only [walkList, walkCore, hig, if_false]
    rw [ih, countFiles_append]
    simp [countFiles, Item.isFile, List.append_assoc]

theorem readFolderStructure_eq_walkCore (ign : Path → Bool) (es : List (String × FsTree)) :
    readFolderStructure ign es = walkCore ign [] 0 es := by
  simpa [countFiles] using walkList_eq_walkCore ign [] es []

theorem lookupE_cons_ne {name : String} {t : FsTree} {rest : List (String × FsTree)}
    {m : String} (h : m ≠ name) (q : Path) :
    lookupE ((name, t) :: rest) (m :: q) = lookupE rest (m :: q) := by
  have hne : ((name, t).1 == m) = false := beq_eq_false_iff_ne.mpr (Ne.symm h)
  cases q with
  | nil => simp [lookupE, List.find?, hne]
  | cons r rs => simp [lookupE, List.find?, hne]

theorem WFe_cons_iff {n : String} {t : FsTree} {rest : List (String × FsTree)} :
    WFe ((n, t) :: rest) = true ↔
      n ∉ rest.map Prod.fst ∧ WFb t = true ∧ WFe rest = true := by
  simp [WFe, Bool.and_eq_true, decide_eq_true_iff, and_assoc]

theorem walkCore_file_lookup (ign : Path → Bool) (pre : Path) (k : Nat)
    (es : List (String × FsTree)) :
    WFe es = true →
    ∀ p n s i, Item.fileI p n s i ∈ walkCore ign pre k es →
      ∃ m q c, p = pre ++ m :: q ∧ m ∈ es.map Prod.fst ∧
        lookupE es (m :: q) = some (FsTree.file c) ∧ s = c.length := by
  induction pre, k, es using walkCore.induct ign with
  | case1 pre k =>
    intro _ p n s i h
    simp [walkCore] at h
  | case2 pre k name t rest rel hig ih =>
    intro hwf p n s i h
    obtain ⟨hn, hwt, hwr⟩ := WFe_cons_iff.mp hwf
    have h' : Item.fileI p n s i ∈ walkCore ign pre k rest := by
      cases t <;> simpa [walkCore, hig] using h
    obtain ⟨m, q, c, hp, hm, hl, hs⟩ := ih hwr p n s i h'
    have hne : m ≠ name := fun he => hn (he ▸ hm)
    exact ⟨m, q, c, hp, by simp [hm], by rw [lookupE_cons_ne hne]; exact hl, hs⟩
  | case3 pre k name rest rel hig es sub ih1 ih2 ih3 =>
    intro hwf p n s i h
    obtain ⟨hn, hwt, hwr⟩ := WFe_cons_iff.mp hwf
    have hwes : WFe es = true := by simpa [WFb] using hwt
    have hbeq : (name == name) = true := by simp
    simp only [walkCore, hig, if_false] at h
    rcases List.mem_cons.mp h with heq | hmem
    · exact absurd heq (by simp)
    · rcases List.mem_append.mp hmem with hsub | hrest
      · obtain ⟨m', q', c, hp, hm', hl, hs⟩ := ih1 hwes p n s i hsub
        refine ⟨name, m' :: q', c, ?_, by simp, ?_, hs⟩
        · rw [hp]
          show pre ++ [name] ++ m' :: q' = pre ++ name :: m' :: q'
          simp
        · simp only [lookupE, List.find?, hbeq]
          exact hl
      · obtain ⟨m, q, c, hp, hm, hl, hs⟩ := ih3 hwr p n s i hrest
        have hne : m ≠ name := fun he => hn (he ▸ hm)
        exact ⟨m, q, c, hp, by simp [hm], by rw [lookupE_cons_ne hne]; exact hl, hs⟩
  | case4 pre k name rest rel hig c ih =>
    intro hwf p n s i h
    obtain ⟨hn, hwt, hwr⟩ := WFe_cons_iff.mp hwf
    have hbeq : (name == name) = true := by simp
    simp only [walkCore, hig, if_false] at h
    rcases List.mem_cons.mp h with heq | hmem
    · injection heq with hp hname hs hi
      refine ⟨name, [], c, ?_, by simp, ?_, hs⟩
      · rw [hp]
      · simp [lookupE, List.find?, hbeq]
    · obtain ⟨m, q, c', hp, hm, hl, hs⟩ := ih hwr p n s i hmem
      have hne : m ≠ name := fun he => hn (he ▸ hm)
      exact ⟨m, q, c', hp, by simp [hm], by rw [lookupE_cons_ne hne]; exact hl, hs⟩

/-! ### Pre-order of the walk (claim C4) -/

theorem strictExt_irrefl (p : Path) : ¬ strictExt p p := by
  rintro ⟨r, hr, he⟩
  have hlen := congrArg List.length he
  simp only [List.length_append] at hlen
  exact hr (List.length_eq_zero.mp (by omega))

theorem walkCore_shape (ign : Path → Bool) (pre : Path) (k : Nat)
    (es : List (String × FsTree)) :
    ∀ it ∈ walkCore ign pre k es,
      ∃ m tail, it.path = pre ++ m :: tail ∧ m ∈ es.map Prod.fst := by
  induction pre, k, es using walkCore.induct ign with
  | case1 pre k => simp [walkCore]
  | case2 pre k name t rest rel hig ih =>
    intro it hit
    have hit' : it ∈ walkCore ign pre k rest := by
      cases t <;> simpa [walkCore, hig] using hit
    obtain ⟨m, tail, hp, hm⟩ := ih it hit'
    exact ⟨m, tail, hp, by simp [hm]⟩
  | case3 pre k name rest rel hig es sub ih1 ih2 ih3 =>
    intro it hit
    simp only [walkCore, hig, if_false] at hit
    rcases List.mem_cons.mp hit with heq | hmem
    · subst heq
      exact ⟨name, [], rfl, by simp⟩
    · rcases List.mem_append.mp hmem with hsub | hrest
      · obtain ⟨m', t', hp, _⟩ := ih1 it hsub
        refine ⟨name, m' :: t', ?_, by simp⟩
        rw [hp]
        show pre ++ [name] ++ (m' :: t') = pre ++ name :: m' :: t'
        simp
      · obtain ⟨m, tail, hp, hm⟩ := ih3 it hrest
        exact ⟨m, tail, hp, by simp [hm]⟩
  | case4 pre k name rest rel hig c ih =>
    intro it hit
    simp only [walkCore, hig, if_false] at hit
    rcases List.mem_cons.mp hit with heq | hmem
    · subst heq
      exact ⟨name, [], rfl, by simp⟩
    · obtain ⟨m, tail, hp, hm⟩ := ih it hmem
      exact ⟨m, tail, hp, by simp [hm]⟩

theorem walkCore_preorder (ign : Path → Bool) (pre : Path) (k : Nat)
    (es : List (String × FsTree)) :
    WFe es = true →
    ∀ xs p nm ys, walkCore ign pre k es = xs ++ Item.dirI p nm :: ys →
      ∀ it ∈ xs, ¬ strictExt p it.path := by
  induction pre, k, es using walkCore.induct ign with
  | case1 pre k =>
    intro _ xs p nm ys heq
    simp [walkCore] at heq
  | case2 pre k name t rest rel hig ih =>
    intro hwf xs p nm ys heq it hit
    obtain ⟨hn, hwt, hwr⟩ := WFe_cons_iff.mp hwf
    have heq' : walkCore ign pre k rest = xs ++ Item.dirI p nm :: ys := by
      cases t <;> simpa [walkCore, hig] using heq
    exact ih hwr xs p nm ys heq' it hit
  | case3 pre k name rest rel hig es sub ih1 ih2 ih3 =>
    intro hwf xs p nm ys heq it hit
    obtain ⟨hn, hwt, hwr⟩ := WFe_cons_iff.mp hwf
    have hwes : WFe es = true := by simpa [WFb] using hwt
    simp only [walkCore, hig, if_false] at heq
    match xs, hit with
    | [], hit => exact absurd hit (by simp)
    | x :: xs', hit =>
      rw [List.cons_append] at heq
      injection heq with hx htail
      subst hx
      rcases List.append_eq_append_iff.mp htail with ⟨a', ha1, ha2⟩ | ⟨c', hc1, hc2⟩
      · -- the directory item lies in the walk of the remaining siblings
        have hdmem : Item.dirI p nm ∈
            walkCore ign pre (k + countFiles (walkCore ign (pre ++ [name]) 0 es)) rest := by
          rw [ha2]
          simp
        obtain ⟨m, t', hpsh, hm⟩ :=
          walkCore_shape ign pre _ rest (Item.dirI p nm) hdmem
        have hp' : p = pre ++ m :: t' := hpsh
        rcases List.mem_cons.mp hit with hxit | hit'
        · subst hxit
          rintro ⟨r, hr, hre⟩
          have h2 : pre ++ [name] = p ++ r := hre
          have hlen := congrArg List.length h2
          have hlenp := congrArg List.length hp'
          have hrne : r.length ≠ 0 := fun h0 => hr (List.length_eq_zero.mp h0)
          simp only [List.length_append, List.length_cons, List.length_nil] at hlen hlenp
          omega
        · rw [ha1] at hit'
          rcases List.mem_append.mp hit' with hsub | ha'mem
          · obtain ⟨m₂, t₂, hps, _⟩ :=
              walkCore_shape ign (pre ++ [name]) 0 es it hsub
            rintro ⟨r, hr, hre⟩
            rw [hps] at hre
            have hre' : pre ++ name :: m₂ :: t₂ = p ++ r := by
              rw [← hre]
              simp
            rw [hp', List.append_assoc] at hre'
            have hcan := List.append_cancel_left hre'
            have hcan' : name :: m₂ :: t₂ = m :: (t' ++ r) := by simpa using hcan
            have hnm2 : name = m := (List.cons.inj hcan').1
            exact hn (hnm2 ▸ hm)
          · exact ih3 hwr a' p nm ys ha2 it ha'mem
      · cases c' with
        | nil =>
          -- the directory item heads the walk of the remaining siblings
          have ha2 : walkCore ign pre (k + countFiles (walkCore ign (pre ++ [name]) 0 es)) rest
              = Item.dirI p nm :: ys := by simpa using hc2.symm
          have hdmem : Item.dirI p nm ∈
              walkCore ign pre (k + countFiles (walkCore ign (pre ++ [name]) 0 es)) rest := by
            rw [ha2]
            simp
          obtain ⟨m, t', hpsh, hm⟩ :=
            walkCore_shape ign pre _ rest (Item.dirI p nm) hdmem
          have hp' : p = pre ++ m :: t' := hpsh
          rcases List.mem_cons.mp hit with hxit | hit'
          · subst hxit
            rintro ⟨r, hr, hre⟩
            have h2 : pre ++ [name] = p ++ r := hre
            have hlen := congrArg List.length h2
            have hlenp := congrArg List.length hp'
            have hrne : r.length ≠ 0 := fun h0 => hr (List.length_eq_zero.mp h0)
            simp only [List.length_append, List.length_cons, List.length_nil] at hlen hlenp
            omega
          · have hxs' : xs' = walkCore ign (pre ++ [name]) 0 es := by
              simpa using hc1.symm
            have hsub : it ∈ walkCore ign (pre ++ [name]) 0 es := by
              rw [← hxs']
              exact hit'
            obtain ⟨m₂, t₂, hps, _⟩ :=
              walkCore_shape ign (pre ++ [name]) 0 es it hsub
            rintro ⟨r, hr, hre⟩
            rw [hps] at hre
            have hre' : pre ++ name :: m₂ :: t₂ = p ++ r := by
              rw [← hre]
              simp
            rw [hp', List.append_assoc] at hre'
            have hcan := List.append_cancel_left hre'
            have hcan' : name :: m₂ :: t₂ = m :: (t' ++ r) := by simpa using hcan
            have hnm2 : name = m := (List.cons.inj hcan').1
            exact hn (hnm2 ▸ hm)
        | cons d₀ c'' =>
          rw [List.cons_append] at hc2
          injection hc2 with hd0 hys
          subst hd0
          -- the directory item lies inside the walk of the subdirectory
          have hsubeq : walkCore ign (pre ++ [name]) 0 es =
              xs' ++ Item.dirI p nm :: c'' := hc1
          have hdmem : Item.dirI p nm ∈ walkCore ign (pre ++ [name]) 0 es := by
            rw [hsubeq]
            simp
          obtain ⟨m, t', hpsh, hm⟩ :=
            walkCore_shape ign (pre ++ [name]) 0 es (Item.dirI p nm) hdmem
          have hp' : p = (pre ++ [name]) ++ m :: t' := hpsh
          rcases List.mem_cons.mp hit with hxit | hit'
          · subst hxit
            rintro ⟨r, hr, hre⟩
            have h2 : pre ++ [name] = p ++ r := hre
            have hlen := congrArg List.length h2
            have hlenp := congrArg List.length hp'
            have hrne : r.length ≠ 0 := fun h0 => hr (List.length_eq_zero.mp h0)
            simp only [List.length_append, List.length_cons, List.length_nil] at hlen hlenp
            omega
          · exact ih2 hwes xs' p nm c'' hsubeq it hit'
  | case4 pre k name rest rel hig c ih =>
    intro hwf xs p nm ys heq it hit
    obtain ⟨hn, _, hwr⟩ := WFe_cons_iff.mp hwf
    simp only [walkCore, hig, if_false] at heq
    match xs, hit with
    | [], hit => exact absurd hit (by simp)
    | x :: xs', hit =>
      rw [List.cons_append] at heq
      injection heq with hx htail
      subst hx
      have hdmem : Item.dirI p nm ∈ walkCore ign pre (k + 1) rest := by
        rw [htail]
        simp
      obtain ⟨m, t', hpsh, hm⟩ := walkCore_shape ign pre (k + 1) rest (Item.dirI p nm) hdmem
      have hp' : p = pre ++ m :: t' := hpsh
      rcases List.mem_cons.mp hit with hxit | hit'
      · subst hxit
        rintro ⟨r, hr, hre⟩
        have h2 : pre ++ [name] = p ++ r := hre
        have hlen := congrArg List.length h2
        have hlenp := congrArg List.length hp'
        have hrne : r.length ≠ 0 := fun h0 => hr (List.length_eq_zero.mp h0)
        simp only [List.length_append, List.length_cons, List.length_nil] at hlen hlenp
        omega
      · exact ih hwr xs' p nm ys htail it hit'

/-- Claim C4 (confirmed): in the ordered entry list produced by
`readFolderStructure` on a well-formed folder (a real directory never
lists the same name twice), every directory entry occurs strictly
before every entry whose relative path strictly extends the
directory's relative path — the walk is pre-order. -/
theorem c4_walk_preorder (ign : Path → Bool) (es : List (String × FsTree))
    (hwf : WFe es = true) (l : List Item)
    (hleq : readFolderStructure ign es = l) (i j : Nat)
    (hi : i < l.length) (hj : j < l.length) (p : Path) (nm : String)
    (hdir : l.get ⟨i, hi⟩ = Item.dirI p nm)
    (hext : strictExt p (l.get ⟨j, hj⟩).path) : i < j := by
  subst hleq
  by_contra hij
  push_neg at hij
  rcases eq_or_lt_of_le hij with heqji | hlt
  · subst heqji
    rw [hdir] at hext
    exact strictExt_irrefl p hext
  · set l := readFolderStructure ign es with hldef
    have hsplit : l = l.take i ++ Item.dirI p nm :: l.drop (i + 1) := by
      conv_lhs => rw [← List.take_append_drop i l]
      congr 1
      rw [← hdir, List.get_eq_getElem]
      exact List.drop_eq_getElem_cons hi
    have heqw : walkCore ign [] 0 es = l.take i ++ Item.dirI p nm :: l.drop (i + 1) := by
      rw [← readFolderStructure_eq_walkCore]
      exact hsplit
    have hmemtake : l.get ⟨j, hj⟩ ∈ l.take i := by
      have hjt : j < (l.take i).length := by
        simp [List.length_take]
        omega
      have : (l.take i).get ⟨j, hjt⟩ = l.get ⟨j, hj⟩ := by
        simp [List.get_eq_getElem, List.getElem_take]
      rw [← this]
      exact List.get_mem _ _ _
    exact walkCore_preorder ign [] 0 es hwf (l.take i) p nm (l.drop (i + 1)) heqw
      (l.get ⟨j, hj⟩) hmemtake hext

/-- Witness for C4 on a concrete folder: in the walk of `collideTree`
the directory `x` is at position 1 and the file `x/y.txt` (whose path
strictly extends `x`) at position 2, so 1 < 2. -/
theorem c4_walk_preorder_witness : 1 < 2 := by
  have hwalk : readFolderStructure ignNone collideTree =
      [.fileI ["x_y.txt"] "x_y.txt" 1 0, .dirI ["x"] "x",
        .fileI ["x", "y.txt"] "y.txt" 1 0] := by
    simp [readFolderStructure, walkList, countFiles, Item.isFile, collideTree, ignNone]
  refine c4_walk_preorder ignNone collideTree (by decide) _ hwalk 1 2 (by decide) (by decide)
    ["x"] "x" (by decide) ?_
  exact ⟨["y.txt"], by decide, by decide⟩

/-! ### The size field of v2 archives (claim C9) -/

/-- Claim C9 (confirmed): every file entry serialized by the v2 writer
carries a `size` equal to the source file's byte count as recorded at
walk time, regardless of the chosen content encoding — the content
attachment loop sets `content`/`encoding` but never touches `size`, so
a base64-classified file keeps the pre-encoding byte count. -/
theorem c9_v2_size_field (ign : Path → Bool) (root : List (String × FsTree))
    (hwf : WFe root = true) (p : Path) (n : String) (s : Nat) (cont : List Nat) (e : String)
    (hmem : V2Item.fileV p n s cont e ∈ (folderToTextV2 ign root).2) :
    ∃ bytes, lookupE root p = some (FsTree.file bytes) ∧ s = bytes.length ∧
      (cont, e) = v2EncodeContent bytes := by
  simp only [folderToTextV2, List.mem_map] at hmem
  obtain ⟨it, hit, heq⟩ := hmem
  cases it with
  | dirI p' n' => simp at heq
  | fileI p' n' s' i' =>
    simp only [V2Item.fileV.injEq] at heq
    obtain ⟨hp, hn, hs, hc, he⟩ := heq
    rw [readFolderStructure_eq_walkCore] at hit
    obtain ⟨m, q, c, hp', hm, hl, hs'⟩ := walkCore_file_lookup ign [] 0 root hwf p' n' s' i' hit
    refine ⟨c, ?_, ?_, ?_⟩
    · rw [← hp, hp']
      simpa using hl
    · omega
    · have hco : contentOf root p' = c := by
        have : lookupE root p' = some (FsTree.file c) := by rw [hp']; simpa using hl
        simp [contentOf, this]
      rw [← hc, ← he, hco]

/-- Witness for C9 at a concrete binary file: the tree holding
`data.bin` = bytes `[0, 255]` (contains NUL, hence base64-encoded as
`AP8=`, character codes `[65, 80, 56, 61]`) serializes with
`size = 2`, the original byte count, not the encoded length `4`. -/
theorem c9_v2_size_field_witness :
    ∃ bytes, lookupE binTree ["data.bin"] = some (FsTree.file bytes) ∧ 2 = bytes.length ∧
      (([65, 80, 56, 61] : List Nat), "base64") = v2EncodeContent bytes := by
  apply c9_v2_size_field ignNone binTree (by decide) ["data.bin"] "data.bin" 2
    [65, 80, 56, 61] "base64"
  have hwalk : readFolderStructure ignNone binTree =
      [.fileI ["data.bin"] "data.bin" 2 0] := by
    simp [readFolderStructure, walkList, countFiles, binTree, ignNone]
  simp only [folderToTextV2, hwalk]
  decide

/-! ### Base64 codec lemmas (claim C3) -/

theorem b64_val_char : ∀ s : Nat, s < 64 → b64ValN (b64CharN s) = s := by decide

theorem b64_char_ne_61 : ∀ s : Nat, s < 64 → b64CharN s ≠ 61 := by decide

theorem b64_roundtrip :
    ∀ bs : List Nat, (∀ x ∈ bs, x < 256) → b64DecodeN (b64EncodeN bs) = bs := by
  intro bs
  induction bs using b64EncodeN.induct with
  | case1 => intro _; rfl
  | case2 a =>
    intro h
    have ha : a < 256 := h a (by simp)
    have e1 := b64_val_char (a / 4) (by omega)
    have e2 := b64_val_char (a % 4 * 16) (by omega)
    simp [b64EncodeN, b64DecodeN, e1, e2]
    omega
  | case3 a b =>
    intro h
    have ha : a < 256 := h a (by simp)
    have hb : b < 256 := h b (by simp)
    have e1 := b64_val_char (a / 4) (by omega)
    have e2 := b64_val_char (a % 4 * 16 + b / 16) (by omega)
    have e3 := b64_val_char (b % 16 * 4) (by omega)
    have ne3 := b64_char_ne_61 (b % 16 * 4) (by omega)
    simp [b64EncodeN, b64DecodeN, ne3, e1, e2, e3]
    constructor <;> omega
  | case4 a b c rest ih =>
    intro h
    have ha : a < 256 := h a (by simp)
    have hb : b < 256 := h b (by simp)
    have hc : c < 256 := h c (by simp)
    have hrest : ∀ x ∈ rest, x < 256 := fun x hx => h x (by simp [hx])
    have e1 := b64_val_char (a / 4) (by omega)
    have e2 := b64_val_char (a % 4 * 16 + b / 16) (by omega)
    have e3 := b64_val_char (b % 16 * 4 + c / 64) (by omega)
    have e4 := b64_val_char (c % 64) (by omega)
    have ne3 := b64_char_ne_61 (b % 16 * 4 + c / 64) (by omega)
    have ne4 := b64_char_ne_61 (c % 64) (by omega)
    simp [b64EncodeN, b64DecodeN, ne3, ne4, e1, e2, e3, e4, ih hrest]
    refine ⟨by omega, by omega, by omega⟩

theorem b64EncodeN_ne_nil (a : Nat) (l : List Nat) : b64EncodeN (a :: l) ≠ [] := by
  match l with
  | [] => simp [b64EncodeN]
  | [b] => simp [b64EncodeN]
  | b :: c :: r => simp [b64EncodeN]

/-! ### UTF-8 codec lemmas (claim C3) -/

theorem utf8Decode_cons (b : Nat) (rest : List Nat) :
    utf8Decode (b :: rest) =
      (utf8Step b rest).1.getD 65533 :: utf8Decode (rest.drop (utf8Step b rest).2) := by
  rw [utf8Decode]

theorem utf8ValidB_cons (b : Nat) (rest : List Nat) :
    utf8ValidB (b :: rest) =
      ((utf8Step b rest).1.isSome && utf8ValidB (rest.drop (utf8Step b rest).2)) := by
  rw [utf8ValidB]

theorem utf8Step_ascii {b : Nat} (h : b < 128) (rest : List Nat) :
    utf8Step b rest = (some b, 0) := by
  simp [utf8Step, h]

theorem utf8Step_two {b b2 : Nat} (hb : 194 ≤ b ∧ b ≤ 223) (hc : 128 ≤ b2 ∧ b2 ≤ 191)
    (r : List Nat) :
    utf8Step b (b2 :: r) = (some ((b - 192) * 64 + (b2 - 128)), 1) := by
  simp only [utf8Step]
  rw [if_neg (by omega), if_pos hb, if_pos hc]

theorem utf8Step_three {b b2 b3 : Nat} (hb : 224 ≤ b ∧ b ≤ 239)
    (hg : if b = 224 then 160 ≤ b2 ∧ b2 ≤ 191
          else if b = 237 then 128 ≤ b2 ∧ b2 ≤ 159
          else 128 ≤ b2 ∧ b2 ≤ 191)
    (hc : 128 ≤ b3 ∧ b3 ≤ 191) (r : List Nat) :
    utf8Step b (b2 :: b3 :: r) =
      (some ((b - 224) * 4096 + (b2 - 128) * 64 + (b3 - 128)), 2) := by
  simp only [utf8Step]
  rw [if_neg (by omega), if_neg (by omega), if_pos hb, if_pos hg, if_pos hc]

theorem utf8Step_four {b b2 b3 b4 : Nat} (hb : 240 ≤ b ∧ b ≤ 244)
    (hg : if b = 240 then 144 ≤ b2 ∧ b2 ≤ 191
          else if b = 244 then 128 ≤ b2 ∧ b2 ≤ 143
          else 128 ≤ b2 ∧ b2 ≤ 191)
    (hc : 128 ≤ b3 ∧ b3 ≤ 191) (hd : 128 ≤ b4 ∧ b4 ≤ 191) (r : List Nat) :
    utf8Step b (b2 :: b3 :: b4 :: r) =
      (some ((b - 240) * 262144 + (b2 - 128) * 4096 + (b3 - 128) * 64 + (b4 - 128)), 3) := by
  simp only [utf8Step]
  rw [if_neg (by omega), if_neg (by omega), if_neg (by omega), if_pos hb, if_pos hg,
    if_pos hc, if_pos hd]

theorem utf8_roundtrip_aux :
    ∀ (n : Nat) (bs : List Nat), bs.length ≤ n → utf8ValidB bs = true →
      utf8Encode (utf8Decode bs) = bs := by
  intro n
  induction n with
  | zero =>
    intro bs hlen _
    have : bs = [] := List.length_eq_zero.mp (by omega)
    subst this
    simp [utf8Decode, utf8Encode]
  | succ n ih =>
    intro bs hlen hv
    match bs with
    | [] => simp [utf8Decode, utf8Encode]
    | b :: rest =>
      rw [utf8ValidB_cons, Bool.and_eq_true] at hv
      obtain ⟨hsome, hvrest⟩ := hv
      by_cases h1 : b < 128
      · have hstep := utf8Step_ascii h1 rest
        rw [hstep] at hvrest
        simp only [List.drop_zero] at hvrest
        rw [utf8Decode_cons, hstep]
        simp only [Option.getD_some, List.drop_zero]
        simp only [utf8Encode]
        rw [if_pos h1, ih rest (by simp at hlen; omega) hvrest]
      · by_cases h2 : 194 ≤ b ∧ b ≤ 223
        · match rest with
          | [] =>
            exfalso
            simp [utf8Step, h1, h2] at hsome
          | b2 :: r2 =>
            by_cases hc : 128 ≤ b2 ∧ b2 ≤ 191
            · have hstep := utf8Step_two h2 hc r2
              rw [hstep] at hvrest
              simp only [List.drop_succ_cons, List.drop_zero] at hvrest
              rw [utf8Decode_cons, hstep]
              simp only [Option.getD_some, List.drop_succ_cons, List.drop_zero]
              simp only [utf8Encode]
              rw [if_neg (by omega), if_pos (by omega)]
              rw [ih r2 (by simp at hlen; omega) hvrest]
              simp only [List.cons.injEq]
              exact ⟨by omega, by omega, trivial⟩
            · exfalso
              simp [utf8Step, h1, h2, hc] at hsome
        · by_cases h3 : 224 ≤ b ∧ b ≤ 239
          · match rest with
            | [] =>
              exfalso
              simp [utf8Step, h1, h2, h3] at hsome
            | b2 :: r2 =>
              by_cases hg : if b = 224 then 160 ≤ b2 ∧ b2 ≤ 191
                  else if b = 237 then 128 ≤ b2 ∧ b2 ≤ 159
                  else 128 ≤ b2 ∧ b2 ≤ 191
              · match r2 with
                | [] =>
                  exfalso
                  simp [utf8Step, h1, h2, h3, hg] at hsome
                | b3 :: r3 =>
                  by_cases hc : 128 ≤ b3 ∧ b3 ≤ 191
                  · have hb2 : 128 ≤ b2 ∧ b2 ≤ 191 ∧ (b = 224 → 160 ≤ b2) := by
                      split_ifs at hg with hx hy
                      · exact ⟨by omega, by omega, fun _ => hg.1⟩
                      · exact ⟨by omega, by omega, fun hk => absurd hk hx⟩
                      · exact ⟨by omega, by omega, fun hk => absurd hk hx⟩
                    have hstep := utf8Step_three h3 hg hc r3
                    rw [hstep] at hvrest
                    simp only [List.drop_succ_cons, List.drop_zero] at hvrest
                    rw [utf8Decode_cons, hstep]
                    simp only [Option.getD_some, List.drop_succ_cons, List.drop_zero]
                    simp only [utf8Encode]
                    rw [if_neg (by omega), if_neg (by omega), if_pos (by omega)]
                    rw [ih r3 (by simp at hlen; omega) hvrest]
                    simp only [List.cons.injEq]
                    exact ⟨by omega, by omega, by omega, trivial⟩
                  · exfalso
                    simp [utf8Step, h1, h2, h3, hg, hc] at hsome
              · exfalso
                simp [utf8Step, h1, h2, h3, hg] at hsome
          · by_cases h4 : 240 ≤ b ∧ b ≤ 244
            · match rest with
              | [] =>
                exfalso
                simp [utf8Step, h1, h2, h3, h4] at hsome
              | b2 :: r2 =>
                by_cases hg : if b = 240 then 144 ≤ b2 ∧ b2 ≤ 191
                    else if b = 244 then 128 ≤ b2 ∧ b2 ≤ 143
                    else 128 ≤ b2 ∧ b2 ≤ 191
                · match r2 with
                  | [] =>
                    exfalso
                    simp [utf8Step, h1, h2, h3, h4, hg] at hsome
                  | b3 :: r3 =>
                    by_cases hc : 128 ≤ b3 ∧ b3 ≤ 191
                    · match r3 with
                      | [] =>
                        exfalso
                        simp [utf8Step, h1, h2, h3, h4, hg, hc] at hsome
                      | b4 :: r4 =>
                        by_cases hd : 128 ≤ b4 ∧ b4 ≤ 191
                        · have hb2 : 128 ≤ b2 ∧ b2 ≤ 191 ∧ (b = 240 → 144 ≤ b2) := by
                            split_ifs at hg with hx hy
                            · exact ⟨by omega, by omega, fun _ => hg.1⟩
                            · exact ⟨by omega, by omega, fun hk => absurd hk hx⟩
                            · exact ⟨by omega, by omega, fun hk => absurd hk hx⟩
                          have hstep := utf8Step_four h4 hg hc hd r4
                          rw [hstep] at hvrest
                          simp only [List.drop_succ_cons, List.drop_zero] at hvrest
                          rw [utf8Decode_cons, hstep]
                          simp only [Option.getD_some, List.drop_succ_cons, List.drop_zero]
                          simp only [utf8Encode]
                          rw [if_neg (by omega), if_neg (by omega), if_neg (by omega)]
                          rw [ih r4 (by simp at hlen; omega) hvrest]
                          simp only [List.cons.injEq]
                          exact ⟨by omega, by omega, by omega, by omega, trivial⟩
                        · exfalso
                          simp [utf8Step, h1, h2, h3, h4, hg, hc, hd] at hsome
                    · exfalso
                      simp [utf8Step, h1, h2, h3, h4, hg, hc] at hsome
                · exfalso
                  simp [utf8Step, h1, h2, h3, h4, hg] at hsome
            · exfalso
              simp [utf8Step, h1, h2, h3, h4] at hsome

theorem utf8_roundtrip (bs : List Nat) (hv : utf8ValidB bs = true) :
    utf8Encode (utf8Decode bs) = bs :=
  utf8_roundtrip_aux bs.length bs le_rfl hv

theorem utf8Decode_cons_ne_nil (b : Nat) (rest : List Nat) :
    utf8Decode (b :: rest) ≠ [] := by
  rw [utf8Decode_cons]
  simp

/-! ### v2 content round-trip (claim C3) -/

/-- Claim C3 (amended): a file containing a NUL byte is classified
binary, stored as base64, and round-trips byte-identical; a file with
no NUL byte is classified text and stored via the UTF-8 text path, and
round-trips byte-identical provided its bytes are valid UTF-8 —
invalid sequences are replaced by U+FFFD by `buffer.toString('utf8')`
and therefore do not survive the round trip. -/
theorem c3_v2_content_roundtrip (bytes : List Nat) (h256 : ∀ x ∈ bytes, x < 256) :
    (hasNul bytes = true →
      (v2EncodeContent bytes).2 = "base64" ∧
        v2DecodeContent (v2EncodeContent bytes).1 (v2EncodeContent bytes).2 = bytes) ∧
      (hasNul bytes = false → utf8ValidB bytes = true →
        (v2EncodeContent bytes).2 = "utf8" ∧
          v2DecodeContent (v2EncodeContent bytes).1 (v2EncodeContent bytes).2 = bytes) := by
  constructor
  · intro hnul
    have henc : v2EncodeContent bytes = (b64EncodeN bytes, "base64") := by
      simp [v2EncodeContent, hnul]
    rw [henc]
    refine ⟨rfl, ?_⟩
    have hne : bytes ≠ [] := by
      intro h
      subst h
      simp [hasNul] at hnul
    match bytes, hne with
    | a :: l, _ =>
      have hlen : (b64EncodeN (a :: l)).length > 0 :=
        List.length_pos.mpr (b64EncodeN_ne_nil a l)
      simp only [v2DecodeContent, if_pos hlen]
      simpa using b64_roundtrip (a :: l) h256
  · intro hnul hvalid
    have henc : v2EncodeContent bytes = (utf8Decode bytes, "utf8") := by
      simp [v2EncodeContent, hnul]
    rw [henc]
    refine ⟨rfl, ?_⟩
    match bytes with
    | [] => simp [utf8Decode, v2DecodeContent]
    | b :: rest =>
      have hlen : (utf8Decode (b :: rest)).length > 0 :=
        List.length_pos.mpr (utf8Decode_cons_ne_nil b rest)
      simp only [v2DecodeContent, if_pos hlen]
      simpa using utf8_roundtrip (b :: rest) hvalid

/-- Witness for the amended C3 theorem: the binary file `[0, 255]`
(contains NUL) round-trips through base64, and the valid-UTF-8 text
file `[104, 105]` (`hi`) round-trips through the text path. -/
theorem c3_v2_content_roundtrip_witness :
    ((v2EncodeContent [0, 255]).2 = "base64" ∧
      v2DecodeContent (v2EncodeContent [0, 255]).1 (v2EncodeContent [0, 255]).2 = [0, 255]) ∧
      ((v2EncodeContent [104, 105]).2 = "utf8" ∧
        v2DecodeContent (v2EncodeContent [104, 105]).1 (v2EncodeContent [104, 105]).2 =
          [104, 105]) := by
  constructor
  · exact (c3_v2_content_roundtrip [0, 255] (by decide)).1 (by decide)
  · refine (c3_v2_content_roundtrip [104, 105] (by decide)).2 (by decide) ?_
    rw [utf8ValidB_cons, utf8Step_ascii (by omega)]
    simp only [Option.isSome_some, List.drop_zero, Bool.true_and]
    rw [utf8ValidB_cons, utf8Step_ascii (by omega)]
    simp [utf8ValidB]

/-- Claim C3, counterexample: the byte `0x80` alone contains no NUL, so
it is classified text; `buffer.toString('utf8')` replaces it with
U+FFFD, and the restore path writes the UTF-8 encoding of U+FFFD
(`EF BF BD`), not the original byte — the text path does not round-trip
bytes that are not valid UTF-8. -/
theorem c3_counterexample :
    hasNul [128] = false ∧
      v2DecodeContent (v2EncodeContent [128]).1 (v2EncodeContent [128]).2 =
        [239, 191, 189] := by
  have hdec : utf8Decode [128] = [65533] := by
    rw [utf8Decode_cons]
    have : utf8Step 128 [] = (none, 0) := by simp [utf8Step]
    rw [this]
    simp [utf8Decode]
  constructor
  · rfl
  · have henc : v2EncodeContent [128] = ([65533], "utf8") := by
      simp [v2EncodeContent, hasNul, hdec]
    rw [henc]
    simp [v2DecodeContent, utf8Encode]

/-! ### The Ignore Filter state (claim C5) -/

/-- Claim C5, counterexample: run operation 1 on a folder whose ignore
file holds the rule `special.txt`, then operation 2 on a different
folder with no ignore file.  During operation 2, `shouldIgnore` still
ignores `special.txt` — the rule loaded from the previous operation's
folder leaks — whereas a fresh instance running only operation 2 does
not ignore it.  The claimed per-operation rebuild fails. -/
theorem c5_counterexample :
    shouldIgnore false (loadGitignore (loadGitignore igInit (some ["special.txt"])) none)
        ["special.txt"] = true ∧
      shouldIgnore false (loadGitignore igInit none) ["special.txt"] = false := by
  constructor
  · decide
  · decide

/-- Claim C5 (amended): the Ignore Filter's rule set is NOT rebuilt per
top-level operation — `loadGitignore` appends the built-in rules and
the current folder's ignore file to the instance's accumulated state,
so every rule present before an operation persists through it, and a
persisting literal rule that matches a relative path makes
`shouldIgnore` report the path as ignored during the later operation
regardless of that operation's own folder. -/
theorem c5_rules_persist (st : IgCtx) (g : Option (List String)) (r : String)
    (hr : r ∈ st.rules) (p : Path) (hm : r.data = joinPath p) :
    (loadGitignore st g).rules = st.rules ++ defaultIgnores ++ g.getD [] ∧
      shouldIgnore false (loadGitignore st g) p = true := by
  refine ⟨rfl, ?_⟩
  have hmatch : igMatches (loadGitignore st g).rules (joinPath p) = true := by
    simp only [igMatches, List.any_eq_true]
    exact ⟨r, by simp [loadGitignore, igAdd, hr], by simp [hm]⟩
  simp [shouldIgnore, hmatch]

/-- Witness for the amended C5 theorem: the literal rule `special.txt`
loaded by a previous operation persists through a later
`loadGitignore` and makes `shouldIgnore` ignore `special.txt`. -/
theorem c5_rules_persist_witness :
    (loadGitignore (loadGitignore igInit (some ["special.txt"])) none).rules =
        (loadGitignore igInit (some ["special.txt"])).rules ++ defaultIgnores ++ [] ∧
      shouldIgnore false (loadGitignore (loadGitignore igInit (some ["special.txt"])) none)
        ["special.txt"] = true :=
  c5_rules_persist (loadGitignore igInit (some ["special.txt"])) none "special.txt"
    (by decide) ["special.txt"] (by decide)

/-! ### Operation boundaries (claim C7) -/

/-- Claim C7, counterexample: `getFolderStats` on a missing folder does
not return a structured result — the raw exception escapes the
operation boundary (there is no `try`/`catch` in `getFolderStats`). -/
theorem c7_counterexample :
    getFolderStats ignNone none = .error "Folder does not exist" := rfl

/-- Claim C7 (amended): `folderToText`, `textToFolder` and
`validateSnapFile` wrap their whole bodies in `try`/`catch` and always
return a structured result, never letting an exception escape;
`getFolderStats` has no such wrapper and throws raw errors (e.g. for a
missing folder) past the operation boundary, which its CLI caller must
catch. -/
theorem c7_boundaries (ign : Path → Bool) (src : Option FsTree)
    (snap : Option SnapResult) (v : Option (Except String SnapMeta)) :
    (∃ r, folderToTextOp ign src = .ok r) ∧
      (∃ r, textToFolderOp snap = .ok r) ∧
      (∃ r, validateSnapFileOp v = .ok r) ∧
      (∀ stats, getFolderStats ign none ≠ .ok stats) := by
  refine ⟨⟨_, rfl⟩, ⟨_, rfl⟩, ⟨_, rfl⟩, ?_⟩
  intro stats h
  exact Except.noConfusion h

/-! ### Round-trip lemmas (claim C1) -/

theorem filterMap_fileRecs {α : Type} (F : Path → Nat → α) :
    ∀ l : List Item,
      l.filterMap (fun it =>
        match it with
        | .fileI p _ _ i => some (F p i)
        | .dirI _ _ => none) = (fileRecs l).map (fun pi => F pi.1 pi.2) := by
  intro l
  induction l with
  | nil => rfl
  | cons it rest ih =>
    cases it with
    | dirI p n => simpa [fileRecs, List.filterMap_cons] using ih
    | fileI p n s i => simpa [fileRecs, List.filterMap_cons] using ih

theorem countFiles_eq_fileRecs_length (l : List Item) :
    countFiles l = (fileRecs l).length := by
  induction l with
  | nil => rfl
  | cons it rest ih =>
    cases it with
    | dirI p n => simpa [countFiles, fileRecs, Item.isFile, List.filterMap_cons] using ih
    | fileI p n s i => simpa [countFiles, fileRecs, Item.isFile, List.filterMap_cons] using ih

theorem filterDir_eq_dirPaths_length (l : List Item) :
    (l.filter Item.isDir).length = (dirPathsOf l).length := by
  induction l with
  | nil => rfl
  | cons it rest ih =>
    cases it with
    | dirI p n => simpa [dirPathsOf, Item.isDir, List.filterMap_cons] using ih
    | fileI p n s i => simpa [dirPathsOf, Item.isDir, List.filterMap_cons] using ih

theorem treeAllPaths_head_mem (pre : Path) (n : String) (t : FsTree)
    (rest : List (String × FsTree)) :
    (pre ++ [n]) ∈ treeAllPaths pre ((n, t) :: rest) := by
  cases t <;> simp [treeAllPaths]

theorem walkCore_dirPaths (ign : Path → Bool) (pre : Path) (k : Nat)
    (es : List (String × FsTree)) :
    (∀ p ∈ treeAllPaths pre es, ign p = false) →
      dirPathsOf (walkCore ign pre k es) = treeDirs pre es := by
  induction pre, k, es using walkCore.induct ign with
  | case1 pre k => intro _; simp [walkCore, dirPathsOf, treeDirs]
  | case2 pre k name t rest rel hig ih =>
    intro hno
    exact absurd (hno rel (treeAllPaths_head_mem pre name t rest)) (by simp [hig])
  | case3 pre k name rest rel hig es sub ih1 ih2 ih3 =>
    intro hno
    have hno1 : ∀ p ∈ treeAllPaths (pre ++ [name]) es, ign p = false := fun p hp =>
      hno p (by simp [treeAllPaths, hp])
    have hno3 : ∀ p ∈ treeAllPaths pre rest, ign p = false := fun p hp =>
      hno p (by simp [treeAllPaths, hp])
    simp only [walkCore]
    rw [if_neg hig]
    simp only [dirPathsOf, List.filterMap_cons, List.filterMap_append] at ih2 ih3 ⊢
    rw [ih2 hno1, ih3 hno3]
    simp [treeDirs]
  | case4 pre k name rest rel hig c ih =>
    intro hno
    have hno' : ∀ p ∈ treeAllPaths pre rest, ign p = false := fun p hp =>
      hno p (by simp [treeAllPaths, hp])
    simp only [walkCore]
    rw [if_neg hig]
    simp only [dirPathsOf, List.filterMap_cons] at ih ⊢
    rw [ih hno']
    simp [treeDirs]

theorem walkCore_filePaths (ign : Path → Bool) (pre : Path) (k : Nat)
    (es : List (String × FsTree)) :
    (∀ p ∈ treeAllPaths pre es, ign p = false) →
      (fileRecs (walkCore ign pre k es)).map Prod.fst = (treeFiles pre es).map Prod.fst := by
  induction pre, k, es using walkCore.induct ign with
  | case1 pre k => intro _; simp [walkCore, fileRecs, treeFiles]
  | case2 pre k name t rest rel hig ih =>
    intro hno
    exact absurd (hno rel (treeAllPaths_head_mem pre name t rest)) (by simp [hig])
  | case3 pre k name rest rel hig es sub ih1 ih2 ih3 =>
    intro hno
    have hno1 : ∀ p ∈ treeAllPaths (pre ++ [name]) es, ign p = false := fun p hp =>
      hno p (by simp [treeAllPaths, hp])
    have hno3 : ∀ p ∈ treeAllPaths pre rest, ign p = false := fun p hp =>
      hno p (by simp [treeAllPaths, hp])
    simp only [walkCore]
    rw [if_neg hig]
    simp only [fileRecs, List.filterMap_cons, List.filterMap_append, List.map_append] at ih2 ih3 ⊢
    rw [ih2 hno1, ih3 hno3]
    simp [treeFiles]
  | case4 pre k name rest rel hig c ih =>
    intro hno
    have hno' : ∀ p ∈ treeAllPaths pre rest, ign p = false := fun p hp =>
      hno p (by simp [treeAllPaths, hp])
    simp only [walkCore]
    rw [if_neg hig]
    simp only [fileRecs, List.filterMap_cons] at ih ⊢
    rw [List.map_cons, ih hno']
    simp [treeFiles]

theorem treeFiles_lookup (es : List (String × FsTree)) (pre : Path) :
    WFe es = true →
    ∀ p c, (p, c) ∈ treeFiles pre es →
      ∃ m q, p = pre ++ m :: q ∧ m ∈ es.map Prod.fst ∧
        lookupE es (m :: q) = some (FsTree.file c) := by
  induction pre, es using treeFiles.induct with
  | case1 pre => intro _ p c h; simp [treeFiles] at h
  | case2 pre n es rest ih1 ih2 =>
    intro hwf p c h
    obtain ⟨hn, hwt, hwr⟩ := WFe_cons_iff.mp hwf
    have hwes : WFe es = true := by simpa [WFb] using hwt
    have hbeq : (n == n) = true := by simp
    simp only [treeFiles] at h
    rcases List.mem_append.mp h with hsub | hrest
    · obtain ⟨m', q', hp, hm', hl⟩ := ih1 hwes p c hsub
      refine ⟨n, m' :: q', ?_, by simp, ?_⟩
      · rw [hp]
        simp
      · simp only [lookupE, List.find?, hbeq]
        exact hl
    · obtain ⟨m, q, hp, hm, hl⟩ := ih2 hwr p c hrest
      have hne : m ≠ n := fun he => hn (he ▸ hm)
      exact ⟨m, q, hp, by simp [hm], by rw [lookupE_cons_ne hne]; exact hl⟩
  | case3 pre n c₀ rest ih =>
    intro hwf p c h
    obtain ⟨hn, _, hwr⟩ := WFe_cons_iff.mp hwf
    have hbeq : (n == n) = true := by simp
    simp only [treeFiles, List.mem_cons] at h
    rcases h with heq | hrest
    · obtain ⟨hp, hc⟩ := Prod.mk.inj heq
      subst hc
      refine ⟨n, [], by simpa using hp, by simp, ?_⟩
      simp [lookupE, List.find?, hbeq]
    · obtain ⟨m, q, hp, hm, hl⟩ := ih hwr p c hrest
      have hne : m ≠ n := fun he => hn (he ▸ hm)
      exact ⟨m, q, hp, by simp [hm], by rw [lookupE_cons_ne hne]; exact hl⟩

theorem contentOf_treeFiles (root : List (String × FsTree)) (hwf : WFe root = true)
    (p : Path) (c : List Nat) (h : (p, c) ∈ treeFiles [] root) :
    contentOf root p = c := by
  obtain ⟨m, q, hp, _, hl⟩ := treeFiles_lookup root [] hwf p c h
  have hp' : p = m :: q := by simpa using hp
  rw [contentOf, hp', hl]

theorem lookupLast_map_key {α : Type} (f : α → List Char) (g : α → List Nat) :
    ∀ l : List α, (l.map f).Nodup → ∀ x ∈ l,
      lookupLast (l.map (fun a => (f a, g a))) (f x) = some (g x) := by
  intro l
  induction l with
  | nil => intro _ x hx; simp at hx
  | cons a l' ih =>
    intro hnd x hx
    obtain ⟨hna, hnd'⟩ := List.nodup_cons.mp hnd
    rcases List.mem_cons.mp hx with hxa | hxl
    · subst hxa
      have hnone : ((l'.map (fun a => (f a, g a))).reverse.find?
          (fun e => e.1 == f x)) = none := by
        rw [List.find?_eq_none]
        intro e he
        simp only [List.mem_reverse, List.mem_map] at he
        obtain ⟨b, hb, hbe⟩ := he
        subst hbe
        intro hfb
        exact hna (eq_of_beq hfb ▸ List.mem_map_of_mem f hb)
      simp only [lookupLast, List.map_cons, List.reverse_cons, List.find?_append, hnone,
        Option.none_orElse]
      simp
    · have := ih hnd' x hxl
      simp only [lookupLast] at this ⊢
      rw [List.map_cons, List.reverse_cons, List.find?_append]
      rcases hfind : (l'.map (fun a => (f a, g a))).reverse.find? (fun e => e.1 == f x) with
        _ | v
      · rw [hfind] at this
        exact absurd this (by simp)
      · rw [hfind] at this ⊢
        simpa using this

theorem prefixesNE_mem (r p : Path) :
    r ∈ prefixesNE p ↔ ∃ i, i < p.length ∧ r = p.take (i + 1) := by
  simp [prefixesNE, eq_comm]

theorem self_mem_prefixesNE (p : Path) (hne : p ≠ []) : p ∈ prefixesNE p := by
  rw [prefixesNE_mem]
  have hpos : 0 < p.length := List.length_pos.mpr hne
  refine ⟨p.length - 1, by omega, ?_⟩
  rw [Nat.sub_add_cancel (by omega), List.take_length]

theorem treeDirs_shape (pre : Path) (es : List (String × FsTree)) :
    ∀ p ∈ treeDirs pre es, ∃ q, q ≠ [] ∧ p = pre ++ q := by
  induction pre, es using treeDirs.induct with
  | case1 pre => simp [treeDirs]
  | case2 pre n es rest ih1 ih2 =>
    intro p hp
    simp only [treeDirs, List.mem_cons, List.mem_append] at hp
    rcases hp with rfl | hp | hp
    · exact ⟨[n], by simp, rfl⟩
    · obtain ⟨q, hq, rfl⟩ := ih1 p hp
      exact ⟨n :: q, by simp, by simp⟩
    · exact ih2 p hp
  | case3 pre n c rest ih =>
    intro p hp
    simp only [treeDirs] at hp
    exact ih p hp

theorem treeFiles_shape (pre : Path) (es : List (String × FsTree)) :
    ∀ p c, (p, c) ∈ treeFiles pre es → ∃ q, q ≠ [] ∧ p = pre ++ q := by
  induction pre, es using treeFiles.induct with
  | case1 pre => simp [treeFiles]
  | case2 pre n es rest ih1 ih2 =>
    intro p c hp
    simp only [treeFiles, List.mem_append] at hp
    rcases hp with hp | hp
    · obtain ⟨q, hq, rfl⟩ := ih1 p c hp
      exact ⟨n :: q, by simp, by simp⟩
    · exact ih2 p c hp
  | case3 pre n c₀ rest ih =>
    intro p c hp
    simp only [treeFiles, List.mem_cons] at hp
    rcases hp with heq | hp
    · obtain ⟨hp, _⟩ := Prod.mk.inj heq
      exact ⟨[n], by simp, hp⟩
    · exact ih p c hp

theorem treeDirs_anc (pre : Path) (es : List (String × FsTree)) :
    ∀ p ∈ treeDirs pre es, ∀ i, pre.length < i → i ≤ p.length →
      p.take i ∈ treeDirs pre es := by
  induction pre, es using treeDirs.induct with
  | case1 pre => simp [treeDirs]
  | case2 pre n es rest ih1 ih2 =>
    intro p hp i h1 h2
    simp only [treeDirs, List.mem_cons, List.mem_append] at hp ⊢
    rcases hp with rfl | hp | hp
    · left
      have hplen : (pre ++ [n]).length = pre.length + 1 := by simp
      have : i = (pre ++ [n]).length := by omega
      rw [this, List.take_length]
    · obtain ⟨q, hq, hshape⟩ := treeDirs_shape (pre ++ [n]) es p hp
      rcases Nat.lt_or_ge (pre.length + 1) i with hgt | hle
      · right; left
        exact ih1 p hp i (by simp; omega) h2
      · left
        have hieq : i = (pre ++ [n]).length := by simp; omega
        rw [hshape, hieq, List.take_left]
    · right; right
      exact ih2 p hp i h1 h2
  | case3 pre n c rest ih =>
    intro p hp i h1 h2
    simp only [treeDirs] at hp ⊢
    exact ih p hp i h1 h2

theorem treeFiles_anc (pre : Path) (es : List (String × FsTree)) :
    ∀ p c, (p, c) ∈ treeFiles pre es → ∀ i, pre.length < i → i < p.length →
      p.take i ∈ treeDirs pre es := by
  induction pre, es using treeFiles.induct with
  | case1 pre => simp [treeFiles]
  | case2 pre n es rest ih1 ih2 =>
    intro p c hp i h1 h2
    simp only [treeFiles, List.mem_append] at hp
    simp only [treeDirs, List.mem_cons, List.mem_append]
    rcases hp with hp | hp
    · obtain ⟨q, hq, hshape⟩ := treeFiles_shape (pre ++ [n]) es p c hp
      rcases Nat.lt_or_ge (pre.length + 1) i with hgt | hle
      · right; left
        exact ih1 p c hp i (by simp; omega) h2
      · left
        have hieq : i = (pre ++ [n]).length := by simp; omega
        rw [hshape, hieq, List.take_left]
    · right; right
      exact ih2 p c hp i h1 h2
  | case3 pre n c₀ rest ih =>
    intro p c hp i h1 h2
    simp only [treeFiles, List.mem_cons] at hp
    simp only [treeDirs]
    rcases hp with heq | hp
    · obtain ⟨hpeq, _⟩ := Prod.mk.inj heq
      have hlen : p.length = pre.length + 1 := by rw [hpeq]; simp
      omega
    · exact ih p c hp i h1 h2

theorem packV3_filenames (ign : Path → Bool) (root : List (String × FsTree)) :
    archiveContentFilenames (folderToTextV3 ign root) =
      (fileRecs (readFolderStructure ign root)).map
        (fun pi => generateContentFilename (joinPath pi.1) pi.2) := by
  simp only [archiveContentFilenames, folderToTextV3]
  generalize readFolderStructure ign root = l
  induction l with
  | nil => rfl
  | cons it rest ih =>
    cases it <;> simp [itemToS, fileRecs, List.filterMap_cons, ih]

theorem packV3_contents (ign : Path → Bool) (root : List (String × FsTree)) :
    (folderToTextV3 ign root).contents =
      (fileRecs (readFolderStructure ign root)).map
        (fun pi => (generateContentFilename (joinPath pi.1) pi.2, contentOf root pi.1)) := by
  simp only [folderToTextV3]
  generalize readFolderStructure ign root = l
  induction l with
  | nil => rfl
  | cons it rest ih =>
    cases it <;> simp [fileRecs, List.filterMap_cons, ih]

theorem unpackV3_files (ign : Path → Bool) (root : List (String × FsTree)) :
    (unpackV3Snap (folderToTextV3 ign root)).files =
      (fileRecs (readFolderStructure ign root)).map
        (fun pi => (pi.1, (lookupLast (folderToTextV3 ign root).contents
          (generateContentFilename (joinPath pi.1) pi.2)).getD [])) := by
  simp only [unpackV3Snap]
  have hitems : (folderToTextV3 ign root).items =
      (readFolderStructure ign root).map itemToS := rfl
  rw [hitems]
  generalize (folderToTextV3 ign root).contents = cs
  generalize readFolderStructure ign root = l
  induction l with
  | nil => rfl
  | cons it rest ih =>
    cases it <;> simp [itemToS, fileRecs, List.filterMap_cons, ih]

theorem unpackV3_dirs (ign : Path → Bool) (root : List (String × FsTree)) :
    (unpackV3Snap (folderToTextV3 ign root)).dirs =
      (dirPathsOf (readFolderStructure ign root)).flatMap prefixesNE
        ++ ((fileRecs (readFolderStructure ign root)).map Prod.fst).flatMap
          (fun p => prefixesNE p.dropLast) := by
  simp only [unpackV3Snap, folderToTextV3]
  generalize readFolderStructure ign root = l
  have h1 : ∀ l : List Item, (l.map itemToS).filterMap (fun it =>
      match it with
      | SItem.dirS p _ => some p
      | SItem.fileS _ _ _ _ => none) = dirPathsOf l := by
    intro l
    induction l with
    | nil => rfl
    | cons it rest ih =>
      cases it <;> simp [itemToS, dirPathsOf, List.filterMap_cons, ih]
  have h2 : ∀ l : List Item, (l.map itemToS).filterMap (fun it =>
      match it with
      | SItem.fileS p _ _ _ => some p
      | SItem.dirS _ _ => none) = (fileRecs l).map Prod.fst := by
    intro l
    induction l with
    | nil => rfl
    | cons it rest ih =>
      cases it <;> simp [itemToS, fileRecs, List.filterMap_cons, ih]
  rw [h1, h2]

/-- Claim C1 (amended): packing a well-formed tree with no ignored
paths and restoring into a fresh output folder reproduces the tree
exactly — the restored files (paths and byte contents) equal the source
tree's files, the restored directory set equals the source tree's
directory set, and the metadata counts equal the source counts —
PROVIDED the generated sidecar content filenames are pairwise distinct
(otherwise colliding sidecar files overwrite each other and contents
are lost; see the counterexample). -/
theorem c1_roundtrip (ign : Path → Bool) (root : List (String × FsTree))
    (hwf : WFe root = true)
    (hno : ∀ p ∈ treeAllPaths [] root, ign p = false)
    (hnd : (archiveContentFilenames (folderToTextV3 ign root)).Nodup) :
    (unpackV3Snap (folderToTextV3 ign root)).files = treeFiles [] root ∧
      (∀ r, r ∈ (unpackV3Snap (folderToTextV3 ign root)).dirs ↔ r ∈ treeDirs [] root) ∧
      (folderToTextV3 ign root).metadata =
        ⟨(treeFiles [] root).length, (treeDirs [] root).length⟩ := by
  have hfp : (fileRecs (readFolderStructure ign root)).map Prod.fst =
      (treeFiles [] root).map Prod.fst := by
    rw [readFolderStructure_eq_walkCore]
    exact walkCore_filePaths ign [] 0 root hno
  have hdp : dirPathsOf (readFolderStructure ign root) = treeDirs [] root := by
    rw [readFolderStructure_eq_walkCore]
    exact walkCore_dirPaths ign [] 0 root hno
  have hnd' : ((fileRecs (readFolderStructure ign root)).map
      (fun pi => generateContentFilename (joinPath pi.1) pi.2)).Nodup := by
    rw [← packV3_filenames]
    exact hnd
  have hfiles : (unpackV3Snap (folderToTextV3 ign root)).files = treeFiles [] root := by
    rw [unpackV3_files]
    have hstep : ∀ pi ∈ fileRecs (readFolderStructure ign root),
        (pi.1, (lookupLast (folderToTextV3 ign root).contents
          (generateContentFilename (joinPath pi.1) pi.2)).getD ([] : List Nat)) =
          (pi.1, contentOf root pi.1) := by
      intro pi hpi
      rw [packV3_contents]
      rw [lookupLast_map_key (fun pi => generateContentFilename (joinPath pi.1) pi.2)
        (fun pi => contentOf root pi.1) (fileRecs (readFolderStructure ign root)) hnd' pi hpi]
      rfl
    rw [List.map_congr_left hstep]
    calc (fileRecs (readFolderStructure ign root)).map (fun pi => (pi.1, contentOf root pi.1))
        = ((fileRecs (readFolderStructure ign root)).map Prod.fst).map
            (fun p => (p, contentOf root p)) := by rw [List.map_map]; rfl
      _ = ((treeFiles [] root).map Prod.fst).map (fun p => (p, contentOf root p)) := by
            rw [hfp]
      _ = (treeFiles [] root).map (fun pc => (pc.1, contentOf root pc.1)) := by
            rw [List.map_map]; rfl
      _ = treeFiles [] root := by
            conv_rhs => rw [← List.map_id (treeFiles [] root)]
            apply List.map_congr_left
            intro pc hpc
            obtain ⟨p, c⟩ := pc
            have hc := contentOf_treeFiles root hwf p c hpc
            simp [hc]
  refine ⟨hfiles, ?_, ?_⟩
  · intro r
    rw [unpackV3_dirs, hdp, hfp]
    simp only [List.mem_append, List.mem_flatMap]
    constructor
    · rintro (⟨p, hp, hr⟩ | ⟨p, hp, hr⟩)
      · rw [prefixesNE_mem] at hr
        obtain ⟨i, hi, rfl⟩ := hr
        exact treeDirs_anc [] root p hp (i + 1) (by simp) (by omega)
      · obtain ⟨pc, hpc, rfl⟩ := List.mem_map.mp hp
        rw [prefixesNE_mem] at hr
        obtain ⟨i, hi, rfl⟩ := hr
        have hlen : pc.1.dropLast.length = pc.1.length - 1 := List.length_dropLast pc.1
        have hdl : pc.1.dropLast.take (i + 1) = pc.1.take (i + 1) := by
          rw [List.dropLast_eq_take, List.take_take]
          congr 1
          omega
        rw [hdl]
        obtain ⟨p, c⟩ := pc
        have hi2 : i < p.dropLast.length := hi
        rw [List.length_dropLast] at hi2
        exact treeFiles_anc [] root p c hpc (i + 1) (by simp) (by omega)
    · intro hr
      left
      obtain ⟨q, hq, hshape⟩ := treeDirs_shape [] root r hr
      refine ⟨r, hr, self_mem_prefixesNE r ?_⟩
      rw [hshape]
      simpa using hq
  · simp only [folderToTextV3]
    have hc1 : countFiles (readFolderStructure ign root) = (treeFiles [] root).length := by
      rw [countFiles_eq_fileRecs_length]
      have := congrArg List.length hfp
      simpa using this
    have hc2 : ((readFolderStructure ign root).filter Item.isDir).length =
        (treeDirs [] root).length := by
      rw [filterDir_eq_dirPaths_length, hdp]
    rw [hc1, hc2]

/-- Counterexample to C1 as stated: `collideTree` is well-formed and
has no ignored paths, yet pack-then-restore does not reproduce its
files — sanitization conflates `x/y.txt` with `x_y.txt` and both get
content index 0, so their sidecar files collide and the later write
overwrites the earlier one. -/
theorem c1_counterexample :
    WFe collideTree = true ∧
    (∀ p ∈ treeAllPaths [] collideTree, ignNone p = false) ∧
    (unpackV3Snap (folderToTextV3 ignNone collideTree)).files ≠ treeFiles [] collideTree := by
  have hwalk2 : readFolderStructure ignNone collideTree =
      [.fileI ["x_y.txt"] "x_y.txt" 1 0, .dirI ["x"] "x", .fileI ["x", "y.txt"] "y.txt" 1 0] := by
    simp [readFolderStructure, walkList, countFiles, Item.isFile, collideTree, ignNone]
  have hnum2 : natToChars 0 = ['0'] := by
    rw [natToChars_eq]
    rfl
  refine ⟨by decide, fun p _ => rfl, ?_⟩
  have hfiles : (unpackV3Snap (folderToTextV3 ignNone collideTree)).files =
      [(["x_y.txt"], [2]), (["x", "y.txt"], [2])] := by
    simp only [unpackV3Snap, folderToTextV3, hwalk2]
    simp [itemToS, generateContentFilename, hnum2, joinPath, sanitize, sanitizeChar,
      lookupLast, contentOf, lookupE, collideTree, List.find?]
  have htf : treeFiles [] collideTree = [(["x_y.txt"], [1]), (["x", "y.txt"], [2])] := by
    simp [treeFiles, collideTree]
  rw [hfiles, htf]
  decide

theorem c1_roundtrip_witness :
    WFe binTree = true ∧
    (∀ p ∈ treeAllPaths [] binTree, ignNone p = false) ∧
    (archiveContentFilenames (folderToTextV3 ignNone binTree)).Nodup ∧
    (unpackV3Snap (folderToTextV3 ignNone binTree)).files = treeFiles [] binTree := by
  have h1 : WFe binTree = true := by decide
  have h2 : ∀ p ∈ treeAllPaths [] binTree, ignNone p = false := fun p _ => rfl
  have hwalkb : readFolderStructure ignNone binTree =
      [.fileI ["data.bin"] "data.bin" 2 0] := by
    simp [readFolderStructure, walkList, countFiles, Item.isFile, binTree, ignNone]
  have h3 : (archiveContentFilenames (folderToTextV3 ignNone binTree)).Nodup := by
    simp [archiveContentFilenames, folderToTextV3, hwalkb, itemToS]
  exact ⟨h1, h2, h3, (c1_roundtrip ignNone binTree h1 h2 h3).1⟩

/-! ### C2 and C10: the reader's format dispatch -/

/-- Claim C2 (amended): `textToFolder` parses the whole file as JSON
FIRST; when that parse fails it throws an invalid-format error
immediately — there is NO fallback to sentinel extraction on parse
failure.  The legacy sentinel path runs exactly when the whole-file
parse succeeds and the parsed value's `type` is not `folder-snap-v3`
(and the value is not `null`, whose `type` access throws); a
`folder-snap-v3` value dispatches to the v3 reader. -/
theorem c2_reader_dispatch (env : List Char → Bool)
    (readF : List Char → List Char) (sfd content out : List Char) :
    (jsonParse content = none →
      textToFolderRun env readF sfd content out =
        ⟨false, some invalidSnapFormatMsg, []⟩) ∧
    (∀ d, jsonParse content = some d → d ≠ JVal.jnull → typeIsV3 d = false →
      textToFolderRun env readF sfd content out = unpackLegacyRun env content out) ∧
    (∀ d, jsonParse content = some d → typeIsV3 d = true →
      textToFolderRun env readF sfd content out =
        unpackV3Run env readF sfd d out) := by
  refine ⟨fun h => by simp [textToFolderRun, h], ?_, ?_⟩
  · intro d hd hnull hv3
    cases d with
    | jnull => exact absurd rfl hnull
    | jbool b => simp [textToFolderRun, hd, hv3]
    | jnum s => simp [textToFolderRun, hd, hv3]
    | jstr s => simp [textToFolderRun, hd, hv3]
    | jarr xs => simp [textToFolderRun, hd, hv3]
    | jobj fs => simp [textToFolderRun, hd, hv3]
  · intro d hd hv3
    cases d with
    | jnull => simp [typeIsV3, jGet] at hv3
    | jbool b => simp [textToFolderRun, hd, hv3]
    | jnum s => simp [textToFolderRun, hd, hv3]
    | jstr s => simp [textToFolderRun, hd, hv3]
    | jarr xs => simp [textToFolderRun, hd, hv3]
    | jobj fs => simp [textToFolderRun, hd, hv3]

theorem c2_reader_dispatch_witness :
    textToFolderRun (fun _ => false) (fun _ => []) [] ("nope".data) ("o".data) =
      ⟨false, some invalidSnapFormatMsg, []⟩ :=
  (c2_reader_dispatch (fun _ => false) (fun _ => []) [] ("nope".data)
    ("o".data)).1 rfl

/-- Counterexample to C2 as stated: `c2text` is a legacy
sentinel-wrapped archive — not valid JSON as a whole, with both
markers present and valid truthy-checked JSON between them, so the
sentinel extraction succeeds — yet `textToFolder` returns the
invalid-format failure without attempting it. -/
theorem c2_counterexample :
    jsonParse c2text = none ∧
    (unpackLegacyRun (fun _ => false) c2text ("out".data)).success = true ∧
    textToFolderRun (fun _ => false) (fun _ => []) [] c2text ("out".data) =
      ⟨false, some invalidSnapFormatMsg, []⟩ :=
  ⟨rfl, rfl, rfl⟩

/-- Claim C10: when format detection fails — the file is not valid
JSON, or it parses to a non-v3 value and a sentinel marker is missing
— `textToFolder` returns a failure result with an EMPTY write log: in
the source, every throw on these paths precedes the first
`fs.mkdirSync`/`fs.writeFileSync`. -/
theorem c10_atomic_on_format_failure (env : List Char → Bool)
    (readF : List Char → List Char) (sfd content out : List Char)
    (h : jsonParse content = none ∨
      ∃ d, jsonParse content = some d ∧ typeIsV3 d = false ∧
        (indexOfSub content startMarker = none ∨
          indexOfSub content endMarker = none)) :
    (textToFolderRun env readF sfd content out).success = false ∧
    (textToFolderRun env readF sfd content out).writes = [] := by
  rcases h with h | ⟨d, hd, hv3, hm⟩
  · simp [textToFolderRun, h]
  · have hleg : unpackLegacyRun env content out =
        ⟨false, some missingMarkersMsg, []⟩ := by
      rcases hm with hm | hm
      · cases h2 : indexOfSub content endMarker <;>
          simp [unpackLegacyRun, hm, h2]
      · cases h1 : indexOfSub content startMarker <;>
          simp [unpackLegacyRun, h1, hm]
    cases d with
    | jnull => simp [textToFolderRun, hd]
    | jbool b => simp [textToFolderRun, hd, hv3, hleg]
    | jnum s => simp [textToFolderRun, hd, hv3, hleg]
    | jstr s => simp [textToFolderRun, hd, hv3, hleg]
    | jarr xs => simp [textToFolderRun, hd, hv3, hleg]
    | jobj fs => simp [textToFolderRun, hd, hv3, hleg]

theorem c10_atomic_on_format_failure_witness :
    (textToFolderRun (fun _ => false) (fun _ => []) [] ("garbage".data)
      ("o".data)).success = false ∧
    (textToFolderRun (fun _ => false) (fun _ => []) [] ("garbage".data)
      ("o".data)).writes = [] :=
  c10_atomic_on_format_failure (fun _ => false) (fun _ => []) []
    ("garbage".data) ("o".data) (Or.inl rfl)

end FolderSnap
